import Mathlib

/-!
Shallow embedding of the imcsdk core module (src/imcsdk/imccore.py) and
verification of its specification.

The Python module defines a class hierarchy
  ImcBase  →  AbstractFilter, BaseObject, ImcCustomMethod (→ OperationStatus)
whose instances form trees (`_child` lists) carrying a dynamic attribute
dictionary (`__dict__`).  We model an object as a `Node` tagged with the
variant (`Kind`) it was constructed as.  Structural private fields of
`__dict__` (`_class_id`, `_tag_name`, `_child`, `_handle`, `_dirty_mask`)
are modelled as typed members of `Node`; `attrs` models the remaining,
string-valued portion of `__dict__` in insertion order, exactly the keys a
`for key in self.__dict__` loop visits besides the structural ones.

XML elements (`xml.etree` `Element`) are modelled by `Xml`: a tag, an
attribute dictionary in insertion order, and a child-element list.

Methods that Python would fail on (calling the missing `to_xml` of
`OperationStatus` raises `AttributeError`; `list.remove` raises
`ValueError`; the registry raises on an unknown tag) are modelled with
`Option`/`Except` results.
-/

namespace Imc

/-- Variant of an `ImcBase` instance.  `baseObject` is class `BaseObject`,
`abstractFilter` is class `AbstractFilter`, `operationStatus` is class
`OperationStatus` (an `ImcCustomMethod`, which adds no methods of its own). -/
inductive Kind where
  | baseObject
  | abstractFilter
  | operationStatus
deriving DecidableEq, Repr

mutual
/-- An `ImcBase` instance: the variant it was constructed as, the structural
private fields `_class_id`, `_tag_name` (`tag_name=None` is modelled as the
caller choosing the string actually used), `_dirty_mask` (`none` while the
attribute is unset, as after `__init__`), `_handle`, and the public
string-valued part of `__dict__` (`attrs`, insertion-ordered), plus `_child`. -/
inductive Node where
  | mk (kind : Kind) (class_id : String) (tag_name : String)
       (attrs : List (String × String))
       (dirty_mask : Option Nat)
       (handle : Option Nat)
       (child : NodeList)
deriving Repr

/-- A `_child` list of `ImcBase` instances. -/
inductive NodeList where
  | nil
  | cons (n : Node) (l : NodeList)
deriving Repr
end

mutual
/-- An `xml.etree` element: tag, attribute dictionary (insertion order,
as a Python dict preserves), subelements. -/
inductive Xml where
  | mk (tag : String) (attrib : List (String × String)) (children : XmlList)
deriving Repr

/-- A list of subelements. -/
inductive XmlList where
  | nil
  | cons (x : Xml) (l : XmlList)
deriving Repr
end

def Node.kind : Node → Kind
  | .mk k _ _ _ _ _ _ => k

def Node.class_id : Node → String
  | .mk _ ci _ _ _ _ _ => ci

def Node.tag_name : Node → String
  | .mk _ _ tn _ _ _ _ => tn

def Node.attrs : Node → List (String × String)
  | .mk _ _ _ a _ _ _ => a

def Node.dirty_mask : Node → Option Nat
  | .mk _ _ _ _ d _ _ => d

def Node.handle : Node → Option Nat
  | .mk _ _ _ _ _ h _ => h

def Node.child : Node → NodeList
  | .mk _ _ _ _ _ _ c => c

def Node.withChild : Node → NodeList → Node
  | .mk k ci tn a d h _, c => .mk k ci tn a d h c

def Xml.tag : Xml → String
  | .mk t _ _ => t

def Xml.attrib : Xml → List (String × String)
  | .mk _ a _ => a

def Xml.children : Xml → XmlList
  | .mk _ _ c => c

def NodeList.length : NodeList → Nat
  | .nil => 0
  | .cons _ l => l.length + 1

/-- Appends a node at the end of a child list (Python `list.append`). -/
def NodeList.concat : NodeList → Node → NodeList
  | .nil, n => .cons n .nil
  | .cons m l, n => .cons m (l.concat n)

def NodeList.append : NodeList → NodeList → NodeList
  | .nil, l => l
  | .cons n l, l2 => .cons n (l.append l2)

/-- Tags (`_tag_name`) of the nodes of a list, in order. -/
def NodeList.tags : NodeList → List String
  | .nil => []
  | .cons n l => n.tag_name :: l.tags

def XmlList.append : XmlList → XmlList → XmlList
  | .nil, l => l
  | .cons x l, l2 => .cons x (l.append l2)

/-- Appends a list of subelements at the end of an element's children. -/
def Xml.appendChildren : Xml → XmlList → Xml
  | .mk t a c, es => .mk t a (c.append es)

/-- Tags of a list of elements, in order. -/
def XmlList.tagsX : XmlList → List String
  | .nil => []
  | .cons x l => x.tag :: l.tagsX

/-- Python dictionary assignment `d[k] = v`: overwrite in place when the key
is present, preserving its insertion position, otherwise append at the end. -/
def dictSet (d : List (String × String)) (k v : String) : List (String × String) :=
  match d with
  | [] => [(k, v)]
  | (k', v') :: rest => if k' = k then (k, v) :: rest else (k', v') :: dictSet rest k v

/-- Builds a Python dict from a list of assignments performed in order. -/
def pyDict (ps : List (String × String)) : List (String × String) :=
  ps.foldl (fun d kv => dictSet d kv.1 kv.2) []

/-- Pairwise-distinct keys, the well-formedness every Python dict enjoys. -/
def keysNodupB : List String → Bool
  | [] => true
  | k :: ks => !(ks.contains k) && keysNodupB ks

/-- Python `key.startswith("_")`: the key begins with the private-field
marker character. -/
def isPrivateKey (s : String) : Bool :=
  s.data.head? == some '_'

mutual
/-- Structural equality of nodes.  (Python `list.remove` compares with `==`,
which for `ImcBase` instances is identity; at the value level of this
embedding, identity of objects is not observable and structurally equal
nodes are identified.) -/
def Node.beq : Node → Node → Bool
  | .mk k1 ci1 tn1 a1 d1 h1 c1, .mk k2 ci2 tn2 a2 d2 h2 c2 =>
    k1 == k2 && ci1 == ci2 && tn1 == tn2 && a1 == a2 && d1 == d2 && h1 == h2 && c1.beq c2

def NodeList.beq : NodeList → NodeList → Bool
  | .nil, .nil => true
  | .cons n l, .cons n' l' => n.beq n' && l.beq l'
  | .nil, .cons _ _ => false
  | .cons _ _, .nil => false
end

/-- Does the list contain an element equal (`==`) to `x`? -/
def NodeList.memB : NodeList → Node → Bool
  | .nil, _ => false
  | .cons n l, x => n.beq x || l.memB x

/-- ImcBase.child_add: `self._child.append(obj)`. -/
def Node.child_add (self obj : Node) : Node :=
  self.withChild (self.child.concat obj)

/-- Python `list.remove(x)`: removes the first element equal to `x`; raises
`ValueError` when no element is equal to `x`. -/
def NodeList.remove (l : NodeList) (x : Node) : Except String NodeList :=
  match l with
  | .nil => .error "list.remove(x): x not in list"
  | .cons y l' =>
    if y.beq x then .ok l'
    else (l'.remove x).map (NodeList.cons y)

/-- ImcBase.child_remove: `self._child.remove(obj)`. -/
def Node.child_remove (self obj : Node) : Except String Node :=
  (self.child.remove obj).map self.withChild

/-- ImcBase.child_count: `len(self._child)`. -/
def Node.child_count (self : Node) : Nat :=
  self.child.length

/-- ImcBase.mark_clean: `self._dirty_mask = 0`.  Only the receiver's own
mask is written; the children are not visited. -/
def Node.mark_clean (self : Node) : Node :=
  match self with
  | .mk k ci tn a _ h c => .mk k ci tn a (some 0) h c

/-- ImcBase.child_mark_clean: `for child in self._child: child.mark_clean()`.
Each direct child's own mask is cleared (grandchildren are untouched,
because `mark_clean` does not recurse). -/
def NodeList.markCleanEach : NodeList → NodeList
  | .nil => .nil
  | .cons n l => .cons n.mark_clean l.markCleanEach

def Node.child_mark_clean (self : Node) : Node :=
  self.withChild self.child.markCleanEach

mutual
/-- ImcBase.is_dirty: `return self.child_is_dirty()`.  The receiver's own
`_dirty_mask` is never consulted. -/
def Node.is_dirty : Node → Bool
  | .mk _ _ _ _ _ _ c => c.child_is_dirty

/-- ImcBase.child_is_dirty: `for child in self._child: if child.is_dirty():
return True; return False`. -/
def NodeList.child_is_dirty : NodeList → Bool
  | .nil => false
  | .cons n l => n.is_dirty || l.child_is_dirty
end

/-- ImcBase.attr_set: `self.__dict__[key] = value`.  No validation of any
kind is performed on the key. -/
def Node.attr_set (self : Node) (key value : String) : Node :=
  match self with
  | .mk k ci tn a d h c => .mk k ci tn (dictSet a key value) d h c

/-- ImcBase.attr_get: `return self.__dict__[key]` (`none` models the
`KeyError` on a missing key). -/
def Node.attr_get (self : Node) (key : String) : Option String :=
  self.attrs.lookup key

/-- ImcBase.elem_create.  With `xml_doc=None` a standalone `Element(class_tag)`
is created and `override_tag` is ignored; with a parent document,
`SubElement` is created under it, named `override_tag` when that is truthy
(a non-empty string), else `class_tag`.  Attachment of the subelement to its
parent is performed by the caller in this functional model. -/
def Node.elem_create (class_tag : String) (xml_doc : Option Xml)
    (override_tag : Option String) : Xml :=
  match xml_doc with
  | none => Xml.mk class_tag [] .nil
  | some _ =>
    match override_tag with
    | some t => if t = "" then Xml.mk class_tag [] .nil else Xml.mk t [] .nil
    | none => Xml.mk class_tag [] .nil

/-- Element.set(key, value): dictionary assignment on the attributes. -/
def Xml.set : Xml → String → String → Xml
  | .mk t a c, k, v => .mk t (dictSet a k v) c

/-- Appends a subelement (the effect `SubElement` has on its parent). -/
def Xml.addChild : Xml → Xml → Xml
  | .mk t a c, e => .mk t a (c.append (.cons e .nil))

/-- The attribute-writing loop of `BaseObject.to_xml`:
`for key in self.__dict__: if key.startswith("_"): continue; else:
xml_obj.set(key, self.attr_get(key))`. -/
def writeAttrsBase (a : List (String × String)) (e : Xml) : Xml :=
  a.foldl (fun acc kv => if isPrivateKey kv.1 then acc else acc.set kv.1 kv.2) e

/-- The attribute-writing loop of `AbstractFilter.to_xml`: identical, except
the key `"class_"` is emitted as the literal XML attribute name `"class"`. -/
def writeAttrsFilter (a : List (String × String)) (e : Xml) : Xml :=
  a.foldl
    (fun acc kv =>
      if isPrivateKey kv.1 then acc
      else if kv.1 = "class_" then acc.set "class" kv.2
      else acc.set kv.1 kv.2) e

mutual
/-- The `to_xml` methods of `BaseObject` and `AbstractFilter` (src lines
170-182 and 151-160).  Both create the element via `elem_create`, write
every key of `__dict__` that does not start with `"_"` as an XML attribute
(the filter variant additionally rewrites the key `"class_"` to the literal
attribute name `"class"`), and then serialize the children under the
element via `child_to_xml`.  `ImcCustomMethod`/`OperationStatus` define no
`to_xml` method, so invoking it there raises `AttributeError`; that failure
is modelled as `none` and propagates through `child_to_xml`.  The unused
`option`/`cookie` parameters are only passed along in the source and are
omitted. -/
def Node.to_xml (self : Node) (xml_doc : Option Xml) (elem_name : Option String) :
    Option Xml :=
  match self with
  | .mk k _ tn a _ _ ch =>
    match k with
    | .operationStatus => none
    | .baseObject =>
      ch.child_to_xml (writeAttrsBase a (Node.elem_create tn xml_doc elem_name))
    | .abstractFilter =>
      ch.child_to_xml (writeAttrsFilter a (Node.elem_create tn xml_doc elem_name))

/-- ImcBase.child_to_xml: `for child in self._child: child.to_xml(xml_doc,...)`.
Each child serializes itself as a `SubElement` of the parent; the updated
parent (with the child element appended) is threaded through the loop and
returned. -/
def NodeList.child_to_xml (l : NodeList) (xml_doc : Xml) : Option Xml :=
  match l with
  | .nil => some xml_doc
  | .cons n l' =>
    match n.to_xml (some xml_doc) none with
    | none => none
    | some ce => l'.child_to_xml (xml_doc.addChild ce)
end

/-- Modelled from the spec: the external collaborators
`imcgenutils.word_u`/`imccoreutils.get_imc_obj` (the type registry) are not
part of src/.  Per section 4.5a and section 6 of the spec, the registry maps an XML
element tag to a constructible node type (`reg`, `none` meaning
`UnknownTypeError`) and constructs that type's instance pre-populated from
the element: the instance's element tag is the element's tag, its
`class_id` the registry's class name for the tag (modelled as the tag
itself), and its attributes are populated from the element's attributes
(as `OperationStatus.__init__` does via `attr_set` on its kwargs). -/
def get_imc_obj (reg : String → Option Kind) (tag : String) (elem : Xml) :
    Option Node :=
  match reg tag with
  | none => none
  | some k =>
    some (elem.attrib.foldl (fun n kv => n.attr_set kv.1 kv.2)
      (Node.mk k tag tag [] none none .nil))

mutual
/-- BaseObject.from_xml (src lines 184-205).  Binds `self._handle = handle`,
ingests every XML attribute as a string under the converted name
(`imcgenutils.convert_to_python_var_name`, an external collaborator passed
here as `conv`), then for every child element resolves its tag through the
registry, appends the constructed child, and recurses into it with the same
handle unless the child is an `OperationStatus`.  A registry failure
(`none`) aborts the call. -/
def Node.from_xml (conv : String → String) (reg : String → Option Kind)
    (self : Node) (elem : Xml) (handle : Option Nat) : Option Node :=
  match elem with
  | .mk _ attrib children =>
    let s :=
      match self with
      | .mk k ci tn a d _ c => Node.mk k ci tn a d handle c
    let s := attrib.foldl (fun n kv => n.attr_set (conv kv.1) kv.2) s
    children.from_xml_children conv reg s handle

/-- The child loop of `BaseObject.from_xml`: resolve, append, and recurse
(except into `OperationStatus` children). -/
def XmlList.from_xml_children (el : XmlList) (conv : String → String)
    (reg : String → Option Kind) (self : Node) (handle : Option Nat) :
    Option Node :=
  match el with
  | .nil => some self
  | .cons ce rest =>
    match get_imc_obj reg ce.tag ce with
    | none => none
    | some child =>
      if child.kind = .operationStatus then
        rest.from_xml_children conv reg (self.child_add child) handle
      else
        match child.from_xml conv reg ce handle with
        | none => none
        | some child' =>
          rest.from_xml_children conv reg (self.child_add child') handle
end

/-- Processing of one child element inside `from_xml`: the constructed child
that gets appended to `_child` — the registry-built instance itself for an
`OperationStatus` (no recursion), the recursively ingested instance
otherwise. -/
def process_child (conv : String → String) (reg : String → Option Kind)
    (handle : Option Nat) (ce : Xml) : Option Node :=
  match get_imc_obj reg ce.tag ce with
  | none => none
  | some child =>
    if child.kind = .operationStatus then some child
    else child.from_xml conv reg ce handle

mutual
/-- Every node of the tree is a `BaseObject`. -/
def Node.allBase : Node → Bool
  | .mk k _ _ _ _ _ c => k == Kind.baseObject && c.allBaseList

def NodeList.allBaseList : NodeList → Bool
  | .nil => true
  | .cons n l => n.allBase && l.allBaseList
end

mutual
/-- Every node of the tree is of a variant that has a `to_xml` method
(`BaseObject` or `AbstractFilter`). -/
def Node.allSerializable : Node → Bool
  | .mk k _ _ _ _ _ c => (k == Kind.baseObject || k == Kind.abstractFilter) && c.allSerializableList

def NodeList.allSerializableList : NodeList → Bool
  | .nil => true
  | .cons n l => n.allSerializable && l.allSerializableList
end

mutual
/-- Every node's attribute dictionary has pairwise-distinct keys (as a
Python dict does) and no key starting with the private marker `"_"` (the
spec's data-model invariant on `attributes`). -/
def Node.attrsOk : Node → Bool
  | .mk _ _ _ a _ _ c =>
    keysNodupB (a.map Prod.fst) &&
    a.all (fun kv => !(isPrivateKey kv.1)) && c.attrsOkList

def NodeList.attrsOkList : NodeList → Bool
  | .nil => true
  | .cons n l => n.attrsOk && l.attrsOkList
end

mutual
/-- All attribute keys occurring anywhere in the tree. -/
def Node.allKeys : Node → List String
  | .mk _ _ _ a _ _ c => a.map Prod.fst ++ c.allKeysList

def NodeList.allKeysList : NodeList → List String
  | .nil => []
  | .cons n l => n.allKeys ++ l.allKeysList
end

mutual
/-- The tags of all strict descendants of a node. -/
def Node.descTags : Node → List String
  | .mk _ _ _ _ _ _ c => c.allTags

/-- The tags of all nodes of a list and of their descendants. -/
def NodeList.allTags : NodeList → List String
  | .nil => []
  | .cons n l => n.tag_name :: (n.descTags ++ l.allTags)
end

mutual
/-- Some node of the tree has its dirty flag set (a present, non-zero
`_dirty_mask`). -/
def Node.anyFlagSet : Node → Bool
  | .mk _ _ _ _ d _ c =>
    (match d with
     | some m => m != 0
     | none => false) || c.anyFlagSetList

def NodeList.anyFlagSetList : NodeList → Bool
  | .nil => false
  | .cons n l => n.anyFlagSet || l.anyFlagSetList
end

/-!
Heap model for cloning.  `ImcBase.clone` is `copy.deepcopy(self)`, driven by
the overridden `__deepcopy__`: a shallow `copy.copy(self)` (a fresh object
whose `__dict__` holds the same field values, including the same `_handle`
reference) followed by recursively deep-copying every child and installing
the fresh child list.  Sharing and independence of mutable state are
aliasing properties, so objects are given explicit addresses: a `Heap` maps
addresses to `Obj` records whose `child` field holds addresses and whose
`handle` field holds the address of the session context (copying the field
value preserves the reference).  `readT` reads the tree of values reachable
from an address (with fuel bounding the depth) together with the list of
node addresses it traverses; Python's `deepcopy` memo only matters for
graphs that share subobjects, which the tree discipline of the spec's data
model (one owner per child) excludes.
-/

/-- The `__dict__` of one heap-allocated `ImcBase` instance; `child` holds
the addresses of the children, `handle` the address of the session context. -/
structure Obj where
  kind : Kind
  class_id : String
  tag_name : String
  attrs : List (String × String)
  dirty_mask : Option Nat
  handle : Option Nat
  child : List Nat
deriving DecidableEq, Repr

/-- A heap: an association list from addresses to objects, plus the next
fresh address. -/
structure Heap where
  mem : List (Nat × Obj)
  next : Nat
deriving DecidableEq, Repr

def Heap.find (h : Heap) (a : Nat) : Option Obj :=
  h.mem.lookup a

/-- Allocates a new object at a fresh address. -/
def Heap.alloc (h : Heap) (o : Obj) : Heap × Nat :=
  (Heap.mk (h.mem ++ [(h.next, o)]) (h.next + 1), h.next)

/-- Well-formedness: every allocated address is below `next`. -/
def Heap.wf (h : Heap) : Prop :=
  ∀ p ∈ h.mem, p.1 < h.next

instance (h : Heap) : Decidable h.wf := by
  unfold Heap.wf; infer_instance

/-- ImcBase.attr_set performed on the object at address `b`:
`obj.__dict__[key] = value`, all other heap cells untouched. -/
def Heap.attr_set_at (h : Heap) (b : Nat) (key value : String) : Heap :=
  Heap.mk
    (h.mem.map (fun p =>
      if p.1 = b then
        (p.1, Obj.mk p.2.kind p.2.class_id p.2.tag_name
          (dictSet p.2.attrs key value) p.2.dirty_mask p.2.handle p.2.child)
      else p))
    h.next

/-- The child loop of a fueled tree read: reads each child address with the
given one-address reader, collecting the child trees and the visited
addresses. -/
def readChildren (f : Nat → Option (Node × List Nat)) :
    List Nat → Option (NodeList × List Nat)
  | [] => some (.nil, [])
  | c :: rest =>
    match f c with
    | none => none
    | some (n, l1) =>
      match readChildren f rest with
      | none => none
      | some (ns, l2) => some (.cons n ns, l1 ++ l2)

/-- Reads the value tree rooted at address `a`, together with the addresses
of all nodes of that tree, spending one unit of fuel per depth level. -/
def Heap.readT (h : Heap) : Nat → Nat → Option (Node × List Nat)
  | 0, _ => none
  | fuel + 1, a =>
    match h.find a with
    | none => none
    | some o =>
      match readChildren (fun c => h.readT fuel c) o.child with
      | none => none
      | some (ns, l) =>
        some (Node.mk o.kind o.class_id o.tag_name o.attrs o.dirty_mask
          o.handle ns, a :: l)
termination_by structural fuel a => fuel

/-- The child loop of `__deepcopy__` (`for child in clone._child:
clone_child.append(copy.deepcopy(child))`): deep-copies each child address
with the given one-address copier, threading the heap and collecting the
fresh addresses. -/
def copyChildren (f : Heap → Nat → Option (Heap × Nat)) :
    Heap → List Nat → Option (Heap × List Nat)
  | h, [] => some (h, [])
  | h, c :: rest =>
    match f h c with
    | none => none
    | some (h1, c2) =>
      match copyChildren f h1 rest with
      | none => none
      | some (h2, rest2) => some (h2, c2 :: rest2)

/-- ImcBase.__deepcopy__ on the object at address `a`: deep-copies every
child, then allocates the shallow copy (same field values, in particular the
same `_handle` reference and the same attribute values) carrying the fresh
child list.  (The shallow copy is allocated after the children here; Python
allocates it before — the addresses chosen differ, the result does not.) -/
def Heap.deepcopy : Nat → Heap → Nat → Option (Heap × Nat)
  | 0, _, _ => none
  | fuel + 1, h, a =>
    match h.find a with
    | none => none
    | some o =>
      match copyChildren (fun h2 c => Heap.deepcopy fuel h2 c) h o.child with
      | none => none
      | some (h1, cs2) =>
        some (h1.alloc (Obj.mk o.kind o.class_id o.tag_name o.attrs
          o.dirty_mask o.handle cs2))
termination_by structural fuel h a => fuel

/-- ImcBase.clone: `return copy.deepcopy(self)`. -/
def Heap.clone (h : Heap) (fuel a : Nat) : Option (Heap × Nat) :=
  Heap.deepcopy fuel h a


/-- Heap extension: every cell of `h` is unchanged in `h2` (new cells may
have been allocated). -/
def heapLe (h h2 : Heap) : Prop :=
  ∀ a o, h.find a = some o → h2.find a = some o

mutual
/-- The XML element `e` renders the tree `n`: same tag, same attribute
dictionary, and children elements rendering the children nodes in order. -/
def Node.matchesXml : Node → Xml → Bool
  | .mk _ _ tn a _ _ c, .mk t at2 ch => tn == t && a == at2 && c.matchesXmlList ch

def NodeList.matchesXmlList : NodeList → XmlList → Bool
  | .nil, .nil => true
  | .cons n l, .cons x xl => n.matchesXml x && l.matchesXmlList xl
  | .nil, .cons _ _ => false
  | .cons _ _, .nil => false
end

/-! Helper lemmas. -/

mutual
theorem Node.is_dirty_false (n : Node) : n.is_dirty = false := by
  cases n with
  | mk k ci tn a d h c =>
    show c.child_is_dirty = false
    exact c.child_is_dirty_false

theorem NodeList.child_is_dirty_false (l : NodeList) : l.child_is_dirty = false := by
  cases l with
  | nil => rfl
  | cons n l' =>
    show (n.is_dirty || l'.child_is_dirty) = false
    rw [n.is_dirty_false, l'.child_is_dirty_false]
    rfl
end

mutual
theorem Node.to_xml_isSome (n : Node) :
    ∀ d en, (n.to_xml d en).isSome = n.allSerializable := by
  cases n with
  | mk k ci tn a d h c =>
    intro xd en
    cases k with
    | operationStatus => rfl
    | baseObject =>
      simp only [Node.to_xml, Node.allSerializable]
      rw [c.child_to_xml_isSome]
      rfl
    | abstractFilter =>
      simp only [Node.to_xml, Node.allSerializable]
      rw [c.child_to_xml_isSome]
      rfl

theorem NodeList.child_to_xml_isSome (l : NodeList) :
    ∀ e, (l.child_to_xml e).isSome = l.allSerializableList := by
  cases l with
  | nil => intro e; rfl
  | cons n l' =>
    intro e
    simp only [NodeList.child_to_xml, NodeList.allSerializableList]
    cases hx : n.to_xml (some e) none with
    | none =>
      have := n.to_xml_isSome (some e) none
      rw [hx] at this
      simp only [Option.isSome] at this
      rw [← this]
      rfl
    | some ce =>
      have := n.to_xml_isSome (some e) none
      rw [hx] at this
      simp only [Option.isSome] at this
      rw [← this, l'.child_to_xml_isSome]
      rfl
end

theorem dictSet_lookup (d : List (String × String)) (k v : String) :
    (dictSet d k v).lookup k = some v := by
  induction d with
  | nil => simp [dictSet, List.lookup]
  | cons p rest ih =>
    obtain ⟨k', v'⟩ := p
    simp only [dictSet]
    by_cases hk : k' = k
    · simp [hk, List.lookup]
    · simp only [if_neg hk, List.lookup]
      have : (k == k') = false := by
        simp [BEq.beq]
        exact fun hc => hk hc.symm
      rw [this]
      exact ih

theorem dictSet_lookup_ne (d : List (String × String)) (k v k' : String)
    (h : k' ≠ k) : (dictSet d k v).lookup k' = d.lookup k' := by
  induction d with
  | nil => simp [dictSet, List.lookup, beq_eq_false_iff_ne.mpr h]
  | cons p rest ih =>
    obtain ⟨k2, v2⟩ := p
    simp only [dictSet]
    by_cases hk : k2 = k
    · subst hk
      simp [List.lookup, beq_eq_false_iff_ne.mpr h]
    · simp only [if_neg hk, List.lookup]
      cases hbe : (k' == k2) with
      | true => rfl
      | false => exact ih

theorem keysNodupB_cons (k : String) (ks : List String)
    (h : keysNodupB (k :: ks) = true) : k ∉ ks ∧ keysNodupB ks = true := by
  simp only [keysNodupB, Bool.and_eq_true, Bool.not_eq_true'] at h
  refine ⟨fun hm => ?_, h.2⟩
  have : ks.contains k = true := by simpa using hm
  rw [h.1] at this
  cases this

theorem dictSet_keys_mem (d : List (String × String)) (k v m : String)
    (h : m ∈ (dictSet d k v).map Prod.fst) : m = k ∨ m ∈ d.map Prod.fst := by
  induction d with
  | nil => simpa [dictSet] using h
  | cons p rest ih =>
    obtain ⟨k2, v2⟩ := p
    simp only [dictSet] at h
    by_cases hk : k2 = k
    · rw [if_pos hk] at h
      simp only [List.map_cons, List.mem_cons] at h
      rcases h with h | h
      · exact Or.inl h
      · right
        simp only [List.map_cons, List.mem_cons]
        exact Or.inr h
    · rw [if_neg hk] at h
      simp only [List.map_cons, List.mem_cons] at h
      rcases h with h | h
      · right
        simp only [List.map_cons, List.mem_cons]
        exact Or.inl h
      · rcases ih h with h2 | h2
        · exact Or.inl h2
        · right
          simp only [List.map_cons, List.mem_cons]
          exact Or.inr h2

theorem Xml.set_tag (e : Xml) (k v : String) : (e.set k v).tag = e.tag := by
  cases e; rfl

theorem Xml.set_children (e : Xml) (k v : String) :
    (e.set k v).children = e.children := by
  cases e; rfl

theorem Xml.set_attrib (e : Xml) (k v : String) :
    (e.set k v).attrib = dictSet e.attrib k v := by
  cases e; rfl

theorem Xml.addChild_tag (e ce : Xml) : (e.addChild ce).tag = e.tag := by
  cases e; rfl

theorem Xml.addChild_attrib (e ce : Xml) : (e.addChild ce).attrib = e.attrib := by
  cases e; rfl

theorem elem_create_attrib (ct : String) (d : Option Xml) (ot : Option String) :
    (Node.elem_create ct d ot).attrib = [] := by
  cases d with
  | none => rfl
  | some p =>
    cases ot with
    | none => rfl
    | some t =>
      simp only [Node.elem_create]
      split <;> rfl

theorem elem_create_children (ct : String) (d : Option Xml) (ot : Option String) :
    (Node.elem_create ct d ot).children = .nil := by
  cases d with
  | none => rfl
  | some p =>
    cases ot with
    | none => rfl
    | some t =>
      simp only [Node.elem_create]
      split <;> rfl

/-- The child-serialization loop only appends subelements: the tag and the
attributes of the element under construction are untouched. -/
theorem NodeList.child_to_xml_keep (l : NodeList) :
    ∀ e e2, l.child_to_xml e = some e2 → e2.tag = e.tag ∧ e2.attrib = e.attrib := by
  cases l with
  | nil =>
    intro e e2 h
    cases h
    exact ⟨rfl, rfl⟩
  | cons n l' =>
    intro e e2 h
    simp only [NodeList.child_to_xml] at h
    cases hx : n.to_xml (some e) none with
    | none => rw [hx] at h; cases h
    | some ce =>
      rw [hx] at h
      have := l'.child_to_xml_keep (e.addChild ce) e2 h
      rw [Xml.addChild_tag, Xml.addChild_attrib] at this
      exact this

theorem writeAttrsFilter_cons_priv (k v : String) (rest : List (String × String))
    (e : Xml) (hp : isPrivateKey k = true) :
    writeAttrsFilter ((k, v) :: rest) e = writeAttrsFilter rest e := by
  simp only [writeAttrsFilter, List.foldl_cons]
  congr 1
  simp [hp]

theorem writeAttrsFilter_cons_class (k v : String) (rest : List (String × String))
    (e : Xml) (_hp : isPrivateKey k = false) (hk : k = "class_") :
    writeAttrsFilter ((k, v) :: rest) e = writeAttrsFilter rest (e.set "class" v) := by
  subst hk
  simp only [writeAttrsFilter, List.foldl_cons]
  congr 1

theorem writeAttrsFilter_cons_other (k v : String) (rest : List (String × String))
    (e : Xml) (hp : isPrivateKey k = false) (hk : k ≠ "class_") :
    writeAttrsFilter ((k, v) :: rest) e = writeAttrsFilter rest (e.set k v) := by
  simp only [writeAttrsFilter, List.foldl_cons]
  congr 1
  simp [hp, hk]

theorem writeAttrsBase_cons_priv (k v : String) (rest : List (String × String))
    (e : Xml) (hp : isPrivateKey k = true) :
    writeAttrsBase ((k, v) :: rest) e = writeAttrsBase rest e := by
  simp only [writeAttrsBase, List.foldl_cons]
  congr 1
  simp [hp]

theorem writeAttrsBase_cons_pub (k v : String) (rest : List (String × String))
    (e : Xml) (hp : isPrivateKey k = false) :
    writeAttrsBase ((k, v) :: rest) e = writeAttrsBase rest (e.set k v) := by
  simp only [writeAttrsBase, List.foldl_cons]
  congr 1
  simp [hp]

theorem writeAttrsFilter_tag (a : List (String × String)) :
    ∀ e, (writeAttrsFilter a e).tag = e.tag := by
  induction a with
  | nil => intro e; rfl
  | cons kv rest ih =>
    intro e
    obtain ⟨k, v⟩ := kv
    cases hp : isPrivateKey k with
    | true => rw [writeAttrsFilter_cons_priv k v rest e hp, ih]
    | false =>
      by_cases hk : k = "class_"
      · rw [writeAttrsFilter_cons_class k v rest e hp hk, ih, Xml.set_tag]
      · rw [writeAttrsFilter_cons_other k v rest e hp hk, ih, Xml.set_tag]

/-- When neither `"class_"` nor `"class"` occurs among the keys still to be
written, the filter attribute loop leaves the `"class"` attribute alone. -/
theorem writeAttrsFilter_class_stable (a : List (String × String)) :
    ∀ e, "class_" ∉ a.map Prod.fst → "class" ∉ a.map Prod.fst →
      (writeAttrsFilter a e).attrib.lookup "class" = e.attrib.lookup "class" := by
  induction a with
  | nil => intro e _ _; rfl
  | cons kv rest ih =>
    intro e h1 h2
    obtain ⟨k, v⟩ := kv
    simp only [List.map_cons, List.mem_cons, not_or] at h1 h2
    cases hp : isPrivateKey k with
    | true =>
      rw [writeAttrsFilter_cons_priv k v rest e hp]
      exact ih e h1.2 h2.2
    | false =>
      rw [writeAttrsFilter_cons_other k v rest e hp (fun hc => h1.1 hc.symm),
        ih (e.set k v) h1.2 h2.2, Xml.set_attrib,
        dictSet_lookup_ne e.attrib k v "class" (fun hc => h2.1 hc)]

/-- The filter attribute loop emits the value stored under `"class_"` as the
XML attribute `"class"`, provided the keys are those of a Python dict
(pairwise distinct) and no other field is literally named `"class"`. -/
theorem writeAttrsFilter_class (a : List (String × String)) (x : String) :
    ∀ e, a.lookup "class_" = some x →
      keysNodupB (a.map Prod.fst) = true → "class" ∉ a.map Prod.fst →
      (writeAttrsFilter a e).attrib.lookup "class" = some x := by
  induction a with
  | nil => intro e hx; cases hx
  | cons kv rest ih =>
    intro e hx hnd hnc
    obtain ⟨k, v⟩ := kv
    simp only [List.map_cons, List.mem_cons, not_or] at hnc
    rw [List.map_cons] at hnd
    obtain ⟨hnotin, hnd2⟩ := keysNodupB_cons k (rest.map Prod.fst) hnd
    by_cases hk : k = "class_"
    · subst hk
      have hxv : v = x := by
        simp at hx
        exact hx
      subst hxv
      rw [writeAttrsFilter_cons_class "class_" v rest e (by decide) rfl,
        writeAttrsFilter_class_stable rest (e.set "class" v) hnotin hnc.2,
        Xml.set_attrib, dictSet_lookup]
    · have hx2 : rest.lookup "class_" = some x := by
        rw [List.lookup_cons] at hx
        rw [show ("class_" == k) = false from beq_eq_false_iff_ne.mpr
          (fun hc => hk hc.symm)] at hx
        exact hx
      cases hp : isPrivateKey k with
      | true =>
        rw [writeAttrsFilter_cons_priv k v rest e hp]
        exact ih e hx2 hnd2 hnc.2
      | false =>
        rw [writeAttrsFilter_cons_other k v rest e hp hk]
        exact ih (e.set k v) hx2 hnd2 hnc.2

/-- The filter attribute loop never emits an attribute named `"class_"`. -/
theorem writeAttrsFilter_no_raw_class (a : List (String × String)) :
    ∀ e, "class_" ∉ e.attrib.map Prod.fst →
      "class_" ∉ (writeAttrsFilter a e).attrib.map Prod.fst := by
  induction a with
  | nil => intro e h; exact h
  | cons kv rest ih =>
    intro e h
    obtain ⟨k, v⟩ := kv
    cases hp : isPrivateKey k with
    | true =>
      rw [writeAttrsFilter_cons_priv k v rest e hp]
      exact ih e h
    | false =>
      by_cases hk : k = "class_"
      · rw [writeAttrsFilter_cons_class k v rest e hp hk]
        refine ih (e.set "class" v) ?_
        rw [Xml.set_attrib]
        intro hm
        rcases dictSet_keys_mem e.attrib "class" v "class_" hm with h2 | h2
        · exact absurd h2 (by decide)
        · exact h h2
      · rw [writeAttrsFilter_cons_other k v rest e hp hk]
        refine ih (e.set k v) ?_
        rw [Xml.set_attrib]
        intro hm
        rcases dictSet_keys_mem e.attrib k v "class_" hm with h2 | h2
        · exact hk h2.symm
        · exact h h2

theorem NodeList.remove_not_mem (l : NodeList) (x : Node)
    (h : l.memB x = false) : l.remove x = .error "list.remove(x): x not in list" := by
  cases l with
  | nil => rfl
  | cons n l' =>
    simp only [NodeList.memB, Bool.or_eq_false_iff] at h
    simp only [NodeList.remove, h.1, Bool.false_eq_true, if_false,
      l'.remove_not_mem x h.2]
    rfl

theorem NodeList.remove_first (pre : NodeList) (e x : Node) (post : NodeList)
    (hpre : pre.memB x = false) (he : e.beq x = true) :
    (pre.append (.cons e post)).remove x = .ok (pre.append post) := by
  cases pre with
  | nil => simp [NodeList.append, NodeList.remove, he]
  | cons n l' =>
    simp only [NodeList.memB, Bool.or_eq_false_iff] at hpre
    simp only [NodeList.append, NodeList.remove, hpre.1, Bool.false_eq_true, if_false,
      l'.remove_first e x post hpre.2 he]
    rfl

/-- The attribute-populating fold of `attr_set` calls only rewrites the
attribute dictionary; every structural field is untouched. -/
theorem attr_set_fold_raw (ps : List (String × String)) :
    ∀ (kd : Kind) (ci tn : String) (a : List (String × String))
      (d h : Option Nat) (c : NodeList),
      ps.foldl (fun m kv => m.attr_set kv.1 kv.2) (Node.mk kd ci tn a d h c) =
        Node.mk kd ci tn (ps.foldl (fun d2 kv => dictSet d2 kv.1 kv.2) a) d h c := by
  induction ps with
  | nil => intro kd ci tn a d h c; rfl
  | cons kv rest ih =>
    intro kd ci tn a d h c
    rw [List.foldl_cons, List.foldl_cons]
    exact ih kd ci tn (dictSet a kv.1 kv.2) d h c

/-- Characterization of the modelled registry: on a resolvable tag it
returns a fresh instance of the resolved kind, tagged with the element's
tag and pre-populated with the element's attribute dictionary. -/
theorem get_imc_obj_eq (reg : String → Option Kind) (tag : String) (elem : Xml)
    (k : Kind) (h : reg tag = some k) :
    get_imc_obj reg tag elem =
      some (Node.mk k tag tag (pyDict elem.attrib) none none .nil) := by
  simp only [get_imc_obj, h]
  rw [attr_set_fold_raw elem.attrib k tag tag [] none none .nil]
  rfl

/-- One step of the `from_xml` child loop, phrased through `process_child`:
the processed child is appended to `_child` and the loop continues (a
resolution failure aborts). -/
theorem from_xml_children_cons (conv : String → String)
    (reg : String → Option Kind) (ce : Xml) (rest : XmlList) (s : Node)
    (h : Option Nat) :
    (XmlList.cons ce rest).from_xml_children conv reg s h =
      match process_child conv reg h ce with
      | none => none
      | some c => rest.from_xml_children conv reg (s.child_add c) h := by
  simp only [XmlList.from_xml_children, process_child]
  cases hg : get_imc_obj reg ce.tag ce with
  | none => rfl
  | some child =>
    by_cases hk : child.kind = Kind.operationStatus
    · simp [hk]
    · simp only [hk, Bool.false_eq_true, if_false, if_neg hk]

theorem dictSet_append (d : List (String × String)) (k v : String)
    (h : k ∉ d.map Prod.fst) : dictSet d k v = d ++ [(k, v)] := by
  induction d with
  | nil => rfl
  | cons p rest ih =>
    obtain ⟨k2, v2⟩ := p
    simp only [List.map_cons, List.mem_cons, not_or] at h
    have hne : ¬(k2 = k) := fun hc => h.1 hc.symm
    simp only [dictSet, if_neg hne, List.cons_append]
    rw [ih h.2]

theorem dictFold_disjoint (ps : List (String × String)) :
    ∀ d, (∀ k ∈ ps.map Prod.fst, k ∉ d.map Prod.fst) →
      keysNodupB (ps.map Prod.fst) = true →
      ps.foldl (fun d2 kv => dictSet d2 kv.1 kv.2) d = d ++ ps := by
  induction ps with
  | nil => intro d _ _; simp
  | cons kv rest ih =>
    intro d hdisj hnd
    obtain ⟨k, v⟩ := kv
    rw [List.map_cons] at hdisj hnd
    obtain ⟨hknot, hnd2⟩ := keysNodupB_cons k (rest.map Prod.fst) hnd
    rw [List.foldl_cons]
    have hset : dictSet d k v = d ++ [(k, v)] :=
      dictSet_append d k v (hdisj k (List.mem_cons_self _ _))
    rw [hset, ih (d ++ [(k, v)]) ?_ hnd2, List.append_assoc]
    · rfl
    · intro k2 hk2
      rw [List.map_append, List.mem_append]
      rintro (hc | hc)
      · exact hdisj k2 (List.mem_cons_of_mem _ hk2) hc
      · simp only [List.map_cons, List.map_nil, List.mem_singleton] at hc
        exact hknot (hc ▸ hk2)

/-- A list of pairs with pairwise-distinct keys is its own Python dict. -/
theorem pyDict_self (ps : List (String × String))
    (h : keysNodupB (ps.map Prod.fst) = true) : pyDict ps = ps := by
  have := dictFold_disjoint ps [] (by simp) h
  simpa [pyDict] using this

theorem dictSet_id (d : List (String × String)) (k v : String)
    (h : d.lookup k = some v) : dictSet d k v = d := by
  induction d with
  | nil => cases h
  | cons p rest ih =>
    obtain ⟨k2, v2⟩ := p
    rw [List.lookup_cons] at h
    simp only [dictSet]
    by_cases hk : k2 = k
    · subst hk
      rw [show (k2 == k2) = true from by simp] at h
      cases h
      simp
    · rw [show (k == k2) = false from beq_eq_false_iff_ne.mpr
        (fun hc => hk hc.symm)] at h
      rw [if_neg hk, ih h]

theorem dictFold_self (ps : List (String × String)) :
    ∀ d, (∀ kv ∈ ps, d.lookup kv.1 = some kv.2) →
      ps.foldl (fun d2 kv => dictSet d2 kv.1 kv.2) d = d := by
  induction ps with
  | nil => intro d _; rfl
  | cons kv rest ih =>
    intro d hall
    rw [List.foldl_cons, dictSet_id d kv.1 kv.2 (hall kv (List.mem_cons_self _ _))]
    exact ih d (fun kv2 h2 => hall kv2 (List.mem_cons_of_mem _ h2))

theorem lookup_self_of_nodup (ps : List (String × String))
    (h : keysNodupB (ps.map Prod.fst) = true) :
    ∀ kv ∈ ps, ps.lookup kv.1 = some kv.2 := by
  induction ps with
  | nil => intro kv hkv; cases hkv
  | cons p rest ih =>
    intro kv hkv
    obtain ⟨k2, v2⟩ := p
    rw [List.map_cons] at h
    obtain ⟨hknot, hnd2⟩ := keysNodupB_cons k2 (rest.map Prod.fst) h
    rcases List.mem_cons.mp hkv with hkv | hkv
    · subst hkv
      simp [List.lookup_cons]
    · have hne : kv.1 ≠ k2 := by
        intro hc
        exact hknot (hc ▸ (List.mem_map_of_mem Prod.fst hkv))
      rw [List.lookup_cons, show (kv.1 == k2) = false from
        beq_eq_false_iff_ne.mpr hne]
      exact ih hnd2 kv hkv

/-- The wire-name-converted ingestion fold of `from_xml`, when the
conversion is the identity on every ingested key, rewrites only the
attribute dictionary. -/
theorem attr_set_fold_conv (conv : String → String)
    (ps : List (String × String)) :
    ∀ (kd : Kind) (ci tn : String) (a : List (String × String))
      (d h : Option Nat) (c : NodeList),
      (∀ k ∈ ps.map Prod.fst, conv k = k) →
      ps.foldl (fun m kv => m.attr_set (conv kv.1) kv.2) (Node.mk kd ci tn a d h c) =
        Node.mk kd ci tn (ps.foldl (fun d2 kv => dictSet d2 kv.1 kv.2) a) d h c := by
  induction ps with
  | nil => intro kd ci tn a d h c _; rfl
  | cons kv rest ih =>
    intro kd ci tn a d h c hconv
    rw [List.foldl_cons, List.foldl_cons]
    have h1 : conv kv.1 = kv.1 := hconv kv.1 (by simp)
    have hstep : (Node.mk kd ci tn a d h c).attr_set (conv kv.1) kv.2 =
        Node.mk kd ci tn (dictSet a kv.1 kv.2) d h c := by
      rw [h1]
      rfl
    rw [hstep]
    exact ih kd ci tn (dictSet a kv.1 kv.2) d h c
      (fun k hk => hconv k (List.mem_cons_of_mem _ hk))

theorem elem_create_none (ct : String) (d : Option Xml) :
    Node.elem_create ct d none = Xml.mk ct [] .nil := by
  cases d <;> rfl

/-- On a dictionary of public (non-private, pairwise-distinct) keys whose
keys are fresh for the element, the base attribute loop appends the whole
dictionary to the element's attributes. -/
theorem writeAttrsBase_attrib (a : List (String × String)) :
    ∀ e, (∀ kv ∈ a, isPrivateKey kv.1 = false) →
      (∀ k ∈ a.map Prod.fst, k ∉ e.attrib.map Prod.fst) →
      keysNodupB (a.map Prod.fst) = true →
      writeAttrsBase a e = Xml.mk e.tag (e.attrib ++ a) e.children := by
  induction a with
  | nil =>
    intro e _ _ _
    cases e
    simp [writeAttrsBase, Xml.tag, Xml.attrib, Xml.children]
  | cons kv rest ih =>
    intro e hpub hdisj hnd
    obtain ⟨k, v⟩ := kv
    rw [List.map_cons] at hdisj hnd
    obtain ⟨hknot, hnd2⟩ := keysNodupB_cons k (rest.map Prod.fst) hnd
    rw [writeAttrsBase_cons_pub k v rest e (hpub (k, v) (by simp))]
    have hset : (e.set k v).attrib = e.attrib ++ [(k, v)] := by
      rw [Xml.set_attrib, dictSet_append e.attrib k v
        (hdisj k (List.mem_cons_self _ _))]
    rw [ih (e.set k v) (fun kv2 h2 => hpub kv2 (List.mem_cons_of_mem _ h2)) ?_ hnd2,
      Xml.set_tag, Xml.set_children, hset, List.append_assoc]
    · rfl
    · intro k2 hk2
      rw [hset, List.map_append, List.mem_append]
      rintro (hc | hc)
      · exact hdisj k2 (List.mem_cons_of_mem _ hk2) hc
      · simp only [List.map_cons, List.map_nil, List.mem_singleton] at hc
        exact hknot (hc ▸ hk2)

theorem XmlList.append_assoc (l1 l2 l3 : XmlList) :
    (l1.append l2).append l3 = l1.append (l2.append l3) := by
  cases l1 with
  | nil => rfl
  | cons x l => simp only [XmlList.append, XmlList.append_assoc l l2 l3]

theorem Xml.appendChildren_addChild (e ce : Xml) (es : XmlList) :
    (e.addChild ce).appendChildren es =
      e.appendChildren (XmlList.cons ce es) := by
  cases e
  simp only [Xml.addChild, Xml.appendChildren, XmlList.append_assoc]
  rfl

theorem Node.child_add_tag_name (s x : Node) :
    (s.child_add x).tag_name = s.tag_name := by
  cases s; rfl

theorem Node.child_add_attrs (s x : Node) : (s.child_add x).attrs = s.attrs := by
  cases s; rfl

theorem Node.child_add_child (s x : Node) :
    (s.child_add x).child = s.child.concat x := by
  cases s; rfl

theorem NodeList.tags_concat (l : NodeList) (n : Node) :
    (l.concat n).tags = l.tags ++ [n.tag_name] := by
  cases l with
  | nil => rfl
  | cons m l2 =>
    simp only [NodeList.concat, NodeList.tags, NodeList.tags_concat l2 n,
      List.cons_append]

theorem XmlList.append_nil (l : XmlList) : l.append .nil = l := by
  cases l with
  | nil => rfl
  | cons x l2 => simp only [XmlList.append, XmlList.append_nil l2]

theorem matchesXml_parts (T : Node) (e : Xml) (h : T.matchesXml e = true) :
    e.tag = T.tag_name ∧ e.attrib = T.attrs ∧
      T.child.matchesXmlList e.children = true := by
  cases T with
  | mk kd ci tn a dm hh c =>
    cases e with
    | mk t at2 ch =>
      simp only [Node.matchesXml, Bool.and_eq_true, beq_iff_eq] at h
      exact ⟨h.1.1.symm, h.1.2.symm, h.2⟩

theorem attrsOk_parts (T : Node) (h : T.attrsOk = true) :
    keysNodupB (T.attrs.map Prod.fst) = true ∧
      (∀ kv ∈ T.attrs, isPrivateKey kv.1 = false) ∧
      T.child.attrsOkList = true := by
  cases T with
  | mk kd ci tn a dm hh c =>
    simp only [Node.attrsOk, Bool.and_eq_true] at h
    refine ⟨h.1.1, ?_, h.2⟩
    intro kv hkv
    have := (List.all_eq_true.mp h.1.2) kv hkv
    simpa using this

theorem allBase_parts (T : Node) (h : T.allBase = true) :
    T.kind = Kind.baseObject ∧ T.child.allBaseList = true := by
  cases T with
  | mk kd ci tn a dm hh c =>
    simp only [Node.allBase, Bool.and_eq_true, beq_iff_eq] at h
    exact ⟨h.1, h.2⟩

mutual
/-- On an all-`BaseObject` tree with well-formed attribute dictionaries,
`to_xml` succeeds and yields an element whose tag, attribute dictionary and
child-element sequence render the tree exactly (whatever parent document is
supplied, since the parent only determines `Element` vs `SubElement`). -/
theorem Node.to_xml_matches (n : Node) :
    ∀ (d : Option Xml), n.allBase = true → n.attrsOk = true →
      ∃ e, n.to_xml d none = some e ∧ n.matchesXml e = true := by
  cases n with
  | mk kd ci tn a dm hh c =>
    intro d hbase hok
    obtain ⟨hkd, hcbase⟩ := allBase_parts (Node.mk kd ci tn a dm hh c) hbase
    obtain ⟨hnd, hpub, hcok⟩ := attrsOk_parts (Node.mk kd ci tn a dm hh c) hok
    simp only [Node.kind] at hkd
    simp only [Node.attrs] at hnd hpub
    simp only [Node.child] at hcbase hcok
    subst hkd
    have hwa : writeAttrsBase a (Node.elem_create tn d none) =
        Xml.mk tn a XmlList.nil := by
      rw [elem_create_none]
      rw [writeAttrsBase_attrib a (Xml.mk tn [] XmlList.nil) hpub
        (by simp [Xml.attrib]) hnd]
      simp [Xml.tag, Xml.attrib, Xml.children]
    obtain ⟨es, hcx, hmes⟩ :=
      c.child_to_xml_matches (Xml.mk tn a XmlList.nil) hcbase hcok
    refine ⟨(Xml.mk tn a XmlList.nil).appendChildren es, ?_, ?_⟩
    · simp only [Node.to_xml, hwa]
      exact hcx
    · have hap : (Xml.mk tn a XmlList.nil).appendChildren es = Xml.mk tn a es := by
        simp [Xml.appendChildren, XmlList.append]
      rw [hap]
      simp [Node.matchesXml, hmes]

theorem NodeList.child_to_xml_matches (l : NodeList) :
    ∀ (e0 : Xml), l.allBaseList = true → l.attrsOkList = true →
      ∃ es, l.child_to_xml e0 = some (e0.appendChildren es) ∧
        l.matchesXmlList es = true := by
  cases l with
  | nil =>
    intro e0 _ _
    refine ⟨XmlList.nil, ?_, rfl⟩
    cases e0
    simp [NodeList.child_to_xml, Xml.appendChildren, XmlList.append_nil]
  | cons n l2 =>
    intro e0 hbase hok
    simp only [NodeList.allBaseList, Bool.and_eq_true] at hbase
    simp only [NodeList.attrsOkList, Bool.and_eq_true] at hok
    obtain ⟨ce, hto, hm⟩ := n.to_xml_matches (some e0) hbase.1 hok.1
    obtain ⟨es2, hcx2, hm2⟩ :=
      l2.child_to_xml_matches (e0.addChild ce) hbase.2 hok.2
    refine ⟨XmlList.cons ce es2, ?_, ?_⟩
    · simp only [NodeList.child_to_xml, hto]
      rw [hcx2, Xml.appendChildren_addChild]
    · simp only [NodeList.matchesXmlList, Bool.and_eq_true]
      exact ⟨hm, hm2⟩
end

mutual
/-- Ingesting an element that renders a well-formed all-`BaseObject` tree
`T` into a node `s` with no children (and attributes either empty or
already equal to `T`'s) succeeds and reproduces `T`'s attribute dictionary
and its children's tag sequence, provided the naming service is the
identity on `T`'s keys and the registry resolves every descendant tag to
`BaseObject`. -/
theorem Node.from_xml_reconstruct (conv : String → String)
    (reg : String → Option Kind) (T : Node) :
    ∀ (e : Xml) (s : Node) (h : Option Nat),
      T.matchesXml e = true → T.attrsOk = true →
      (∀ k ∈ T.allKeys, conv k = k) →
      (∀ t ∈ T.descTags, reg t = some Kind.baseObject) →
      s.child = NodeList.nil → (s.attrs = [] ∨ s.attrs = T.attrs) →
      ∃ R, s.from_xml conv reg e h = some R ∧ R.tag_name = s.tag_name ∧
        R.attrs = T.attrs ∧ R.child.tags = T.child.tags := by
  cases T with
  | mk kd ci tn a dm hh c =>
    intro e s h hm hok hconv hreg hschild hsattrs
    cases e with
    | mk t at2 ch =>
      cases s with
      | mk kd2 ci2 tn2 a2 d2 h2 c2 =>
        obtain ⟨hmt, hma, hmch⟩ :=
          matchesXml_parts (Node.mk kd ci tn a dm hh c) (Xml.mk t at2 ch) hm
        obtain ⟨hnd, _hpub, hcok⟩ :=
          attrsOk_parts (Node.mk kd ci tn a dm hh c) hok
        simp only [Xml.tag, Xml.attrib, Xml.children, Node.tag_name,
          Node.attrs, Node.child] at hmt hma hmch hnd hschild hsattrs
        subst hschild
        have hconv2 : ∀ k ∈ List.map Prod.fst a, conv k = k := by
          intro k hk
          refine hconv k ?_
          simp only [Node.allKeys]
          exact List.mem_append_left _ hk
        have hfold : at2.foldl (fun n kv => n.attr_set (conv kv.1) kv.2)
            (Node.mk kd2 ci2 tn2 a2 d2 h NodeList.nil) =
            Node.mk kd2 ci2 tn2 a d2 h NodeList.nil := by
          rw [hma,
            attr_set_fold_conv conv a kd2 ci2 tn2 a2 d2 h NodeList.nil hconv2]
          rcases hsattrs with h0 | h0
          · rw [h0]
            have hpd := pyDict_self a hnd
            simp only [pyDict] at hpd
            rw [hpd]
          · rw [h0, dictFold_self a a (lookup_self_of_nodup a hnd)]
        obtain ⟨R, hR, hRt, hRa, hRtags⟩ :=
          NodeList.from_xml_children_reconstruct conv reg c ch
            (Node.mk kd2 ci2 tn2 a d2 h NodeList.nil) h hmch hcok
            (fun k hk => hconv k (by
              simp only [Node.allKeys]
              exact List.mem_append_right _ hk))
            (fun t2 ht2 => hreg t2 (by
              simpa only [Node.descTags] using ht2))
        refine ⟨R, ?_, ?_, ?_, ?_⟩
        · simp only [Node.from_xml, hfold]
          exact hR
        · exact hRt
        · exact hRa
        · rw [hRtags]
          show NodeList.nil.tags ++ c.tags = c.tags
          simp [NodeList.tags]

/-- The child loop of `from_xml`, run on elements rendering the node list
`TL`, appends nodes reproducing `TL`'s tags in order while leaving the
receiving node's tag and attributes alone. -/
theorem NodeList.from_xml_children_reconstruct (conv : String → String)
    (reg : String → Option Kind) (TL : NodeList) :
    ∀ (el : XmlList) (s : Node) (h : Option Nat),
      TL.matchesXmlList el = true → TL.attrsOkList = true →
      (∀ k ∈ TL.allKeysList, conv k = k) →
      (∀ t ∈ TL.allTags, reg t = some Kind.baseObject) →
      ∃ R, el.from_xml_children conv reg s h = some R ∧
        R.tag_name = s.tag_name ∧ R.attrs = s.attrs ∧
        R.child.tags = s.child.tags ++ TL.tags := by
  cases TL with
  | nil =>
    intro el s h hm _ _ _
    cases el with
    | nil => exact ⟨s, rfl, rfl, rfl, by simp [NodeList.tags]⟩
    | cons x xl => simp [NodeList.matchesXmlList] at hm
  | cons Tc TL2 =>
    intro el s h hm hok hconv hreg
    cases el with
    | nil => simp [NodeList.matchesXmlList] at hm
    | cons ce el2 =>
      simp only [NodeList.matchesXmlList, Bool.and_eq_true] at hm
      obtain ⟨hm1, hm2⟩ := hm
      simp only [NodeList.attrsOkList, Bool.and_eq_true] at hok
      obtain ⟨hok1, hok2⟩ := hok
      obtain ⟨htag, hattr, _⟩ := matchesXml_parts Tc ce hm1
      have hregc : reg ce.tag = some Kind.baseObject := by
        rw [htag]
        exact hreg Tc.tag_name (by simp [NodeList.allTags])
      have hobj := get_imc_obj_eq reg ce.tag ce Kind.baseObject hregc
      have hndc : keysNodupB (Tc.attrs.map Prod.fst) = true :=
        (attrsOk_parts Tc hok1).1
      obtain ⟨Rc, hRc, hRct, hRca, hRctags⟩ :=
        Node.from_xml_reconstruct conv reg Tc ce
          (Node.mk Kind.baseObject ce.tag ce.tag (pyDict ce.attrib)
            none none NodeList.nil) h hm1 hok1
          (fun k hk => hconv k (by
            simp only [NodeList.allKeysList]
            exact List.mem_append_left _ hk))
          (fun t2 ht2 => hreg t2 (by
            simp only [NodeList.allTags]
            exact List.mem_cons_of_mem _ (List.mem_append_left _ ht2)))
          (by rfl)
          (by
            right
            show pyDict ce.attrib = Tc.attrs
            rw [hattr]
            exact pyDict_self Tc.attrs hndc)
      obtain ⟨R, hR, hRt, hRa, hRtags⟩ :=
        NodeList.from_xml_children_reconstruct conv reg TL2 el2
          (s.child_add Rc) h hm2 hok2
          (fun k hk => hconv k (by
            simp only [NodeList.allKeysList]
            exact List.mem_append_right _ hk))
          (fun t2 ht2 => hreg t2 (by
            simp only [NodeList.allTags]
            exact List.mem_cons_of_mem _ (List.mem_append_right _ ht2)))
      refine ⟨R, ?_, ?_, ?_, ?_⟩
      · simp only [XmlList.from_xml_children, hobj]
        rw [if_neg (by simp [Node.kind]), hRc]
        exact hR
      · rw [hRt, Node.child_add_tag_name]
      · rw [hRa, Node.child_add_attrs]
      · rw [hRtags, Node.child_add_child, NodeList.tags_concat,
          List.append_assoc]
        have hRcname : Rc.tag_name = Tc.tag_name := by
          rw [hRct]
          show ce.tag = Tc.tag_name
          exact htag
        rw [hRcname]
        rfl
end
/-! Heap lemmas for cloning. -/

theorem lookup_append_left (l l2 : List (Nat × Obj)) (a : Nat) (o : Obj)
    (h : l.lookup a = some o) : (l ++ l2).lookup a = some o := by
  induction l with
  | nil => cases h
  | cons p rest ih =>
    rw [List.cons_append, List.lookup_cons] at *
    cases hb : (a == p.1) with
    | true => rw [hb] at h; exact h
    | false =>
      rw [hb] at h
      exact ih h

theorem lookup_mem (l : List (Nat × Obj)) (a : Nat) (o : Obj)
    (h : l.lookup a = some o) : (a, o) ∈ l := by
  induction l with
  | nil => cases h
  | cons p rest ih =>
    rw [List.lookup_cons] at h
    cases hb : (a == p.1) with
    | true =>
      rw [hb] at h
      cases h
      have hap : a = p.1 := by simpa using hb
      subst hap
      simp
    | false =>
      rw [hb] at h
      exact List.mem_cons_of_mem _ (ih h)

theorem lookup_last_fresh (l : List (Nat × Obj)) (a : Nat) (o : Obj)
    (h : ∀ p ∈ l, p.1 ≠ a) : (l ++ [(a, o)]).lookup a = some o := by
  induction l with
  | nil => simp [List.lookup]
  | cons p rest ih =>
    rw [List.cons_append, List.lookup_cons]
    rw [show (a == p.1) = false from beq_eq_false_iff_ne.mpr
      (fun hc => h p (List.mem_cons_self _ _) hc.symm)]
    exact ih (fun q hq => h q (List.mem_cons_of_mem _ hq))

theorem Heap.find_lt_of_wf (h : Heap) (a : Nat) (o : Obj) (hwf : h.wf)
    (hf : h.find a = some o) : a < h.next :=
  hwf (a, o) (lookup_mem h.mem a o hf)

theorem Heap.alloc_le (h : Heap) (o : Obj) : heapLe h (h.alloc o).1 := by
  intro a o2 hf
  exact lookup_append_left h.mem [(h.next, o)] a o2 hf

theorem Heap.alloc_find_new (h : Heap) (o : Obj) (hwf : h.wf) :
    (h.alloc o).1.find h.next = some o := by
  refine lookup_last_fresh h.mem h.next o ?_
  intro p hp
  exact Nat.ne_of_lt (hwf p hp)

theorem Heap.alloc_wf (h : Heap) (o : Obj) (hwf : h.wf) : (h.alloc o).1.wf := by
  intro p hp
  simp only [Heap.alloc] at hp ⊢
  rcases List.mem_append.mp hp with hp | hp
  · exact Nat.lt_succ_of_lt (hwf p hp)
  · simp only [List.mem_singleton] at hp
    rw [hp]
    exact Nat.lt_succ_self _

theorem heapLe_refl (h : Heap) : heapLe h h := fun _ _ hf => hf

theorem heapLe_trans (h1 h2 h3 : Heap) (h12 : heapLe h1 h2)
    (h23 : heapLe h2 h3) : heapLe h1 h3 :=
  fun a o hf => h23 a o (h12 a o hf)

theorem Heap.attr_set_at_find_ne (h : Heap) (b : Nat) (k v : String)
    (x : Nat) (hne : x ≠ b) : (h.attr_set_at b k v).find x = h.find x := by
  show List.lookup x (h.mem.map _) = List.lookup x h.mem
  induction h.mem with
  | nil => rfl
  | cons p rest ih =>
    rw [List.map_cons, List.lookup_cons, List.lookup_cons]
    by_cases hpb : p.1 = b
    · rw [if_pos hpb]
      rw [show (x == p.1) = false from beq_eq_false_iff_ne.mpr
        (fun hc => hne (hc.trans hpb))]
      exact ih
    · rw [if_neg hpb]
      cases hb : (x == p.1) with
      | true => rfl
      | false => exact ih

theorem readChildren_congr (f f2 : Nat → Option (Node × List Nat))
    (hpt : ∀ c r, f c = some r → f2 c = some r) (cs : List Nat) :
    ∀ r, readChildren f cs = some r → readChildren f2 cs = some r := by
  induction cs with
  | nil => intro r hr; exact hr
  | cons c rest ih =>
    intro r hr
    cases h1 : f c with
    | none => simp [readChildren, h1] at hr
    | some p1 =>
      obtain ⟨n1, l1⟩ := p1
      simp only [readChildren, h1] at hr
      cases h3 : readChildren f rest with
      | none => simp [readChildren, h1, h3] at hr
      | some p2 =>
        simp only [h3] at hr
        simp only [readChildren, hpt c (n1, l1) h1, ih p2 h3]
        exact hr

theorem readChildren_all (f : Nat → Option (Node × List Nat)) (P : Nat → Prop)
    (hpt : ∀ c n l, f c = some (n, l) → ∀ x ∈ l, P x) (cs : List Nat) :
    ∀ ns L, readChildren f cs = some (ns, L) → ∀ x ∈ L, P x := by
  induction cs with
  | nil =>
    intro ns L hr x hx
    simp only [readChildren, Option.some_inj] at hr
    injection hr with hns hL
    subst hL
    cases hx
  | cons c rest ih =>
    intro ns L hr x hx
    cases h1 : f c with
    | none => simp [readChildren, h1] at hr
    | some p1 =>
      obtain ⟨n1, l1⟩ := p1
      simp only [readChildren, h1] at hr
      cases h3 : readChildren f rest with
      | none => simp [readChildren, h1, h3] at hr
      | some p2 =>
        obtain ⟨ns2, l2⟩ := p2
        simp only [h3, Option.some_inj] at hr
        injection hr with hns hL
        subst hL
        rcases List.mem_append.mp hx with hx | hx
        · exact hpt c n1 l1 h1 x hx
        · exact ih ns2 l2 h3 x hx

theorem readChildren_congr_cond (f f2 : Nat → Option (Node × List Nat))
    (b : Nat)
    (hpt : ∀ c n l, f c = some (n, l) → b ∉ l → f2 c = some (n, l))
    (cs : List Nat) :
    ∀ ns L, readChildren f cs = some (ns, L) → b ∉ L →
      readChildren f2 cs = some (ns, L) := by
  induction cs with
  | nil => intro ns L hr _; exact hr
  | cons c rest ih =>
    intro ns L hr hb
    cases h1 : f c with
    | none => simp [readChildren, h1] at hr
    | some p1 =>
      obtain ⟨n1, l1⟩ := p1
      simp only [readChildren, h1] at hr
      cases h3 : readChildren f rest with
      | none => simp [readChildren, h1, h3] at hr
      | some p2 =>
        obtain ⟨ns2, l2⟩ := p2
        simp only [h3] at hr
        have hL : l1 ++ l2 = L :=
          congrArg Prod.snd (Option.some_injective _ hr)
        have hb1 : b ∉ l1 := fun hc => hb (hL ▸ List.mem_append_left _ hc)
        have hb2 : b ∉ l2 := fun hc => hb (hL ▸ List.mem_append_right _ hc)
        simp only [readChildren, hpt c n1 l1 h1 hb1, ih ns2 l2 h3 hb2]
        exact hr

theorem Heap.readT_mono (h h2 : Heap) (hle : heapLe h h2) :
    ∀ (fuel a : Nat) (r : Node × List Nat),
      h.readT fuel a = some r → h2.readT fuel a = some r := by
  intro fuel
  induction fuel with
  | zero => intro a r hr; simp [Heap.readT] at hr
  | succ fuel ih =>
    intro a r hr
    cases hf : h.find a with
    | none => simp [Heap.readT, hf] at hr
    | some o =>
      simp only [Heap.readT, hf] at hr
      cases hl : readChildren (fun c => h.readT fuel c) o.child with
      | none => simp [Heap.readT, hf, hl] at hr
      | some p =>
        simp only [hl] at hr
        simp only [Heap.readT, hle a o hf,
          readChildren_congr (fun c => h.readT fuel c)
            (fun c => h2.readT fuel c) (fun c r2 hc => ih c r2 hc)
            o.child p hl]
        exact hr

theorem Heap.readT_dom (h : Heap) (hwf : h.wf) :
    ∀ (fuel a : Nat) (t : Node) (L : List Nat),
      h.readT fuel a = some (t, L) → ∀ x ∈ L, x < h.next := by
  intro fuel
  induction fuel with
  | zero => intro a t L hr; simp [Heap.readT] at hr
  | succ fuel ih =>
    intro a t L hr
    cases hf : h.find a with
    | none => simp [Heap.readT, hf] at hr
    | some o =>
      simp only [Heap.readT, hf] at hr
      cases hl : readChildren (fun c => h.readT fuel c) o.child with
      | none => simp [Heap.readT, hf, hl] at hr
      | some p =>
        obtain ⟨ns, l⟩ := p
        simp only [hl, Option.some_inj] at hr
        intro x hx
        have hL : a :: l = L := congrArg Prod.snd hr
        rw [← hL] at hx
        rcases List.mem_cons.mp hx with hx | hx
        · rw [hx]
          exact h.find_lt_of_wf a o hwf hf
        · exact readChildren_all (fun c => h.readT fuel c) (· < h.next)
            (fun c n l2 hc => ih c n l2 hc) o.child ns l hl x hx

theorem Heap.readT_find (h : Heap) (fuel a : Nat) (t : Node) (L : List Nat)
    (hr : h.readT fuel a = some (t, L)) :
    ∃ o, h.find a = some o ∧ o.handle = t.handle := by
  cases fuel with
  | zero => simp [Heap.readT] at hr
  | succ fuel2 =>
    cases hf : h.find a with
    | none => simp [Heap.readT, hf] at hr
    | some o =>
      simp only [Heap.readT, hf] at hr
      cases hl : readChildren (fun c => h.readT fuel2 c) o.child with
      | none => simp [Heap.readT, hf, hl] at hr
      | some p =>
        obtain ⟨ns, l⟩ := p
        simp only [hl, Option.some_inj] at hr
        have ht : Node.mk o.kind o.class_id o.tag_name o.attrs o.dirty_mask
            o.handle ns = t := congrArg Prod.fst hr
        refine ⟨o, rfl, ?_⟩
        rw [← ht]
        rfl

theorem Heap.readT_set_other (h : Heap) (b : Nat) (k v : String) :
    ∀ (fuel a : Nat) (t : Node) (L : List Nat), b ∉ L →
      h.readT fuel a = some (t, L) →
      (h.attr_set_at b k v).readT fuel a = some (t, L) := by
  intro fuel
  induction fuel with
  | zero => intro a t L _ hr; simp [Heap.readT] at hr
  | succ fuel ih =>
    intro a t L hb hr
    cases hf : h.find a with
    | none => simp [Heap.readT, hf] at hr
    | some o =>
      simp only [Heap.readT, hf] at hr
      cases hl : readChildren (fun c => h.readT fuel c) o.child with
      | none => simp [Heap.readT, hf, hl] at hr
      | some p =>
        obtain ⟨ns, l⟩ := p
        simp only [hl] at hr
        have hL : a :: l = L :=
          congrArg Prod.snd (Option.some_injective _ hr)
        have hab : a ≠ b := by
          intro hc
          exact hb (hc ▸ hL ▸ List.mem_cons_self _ _)
        have hlb : b ∉ l := fun hc => hb (hL ▸ List.mem_cons_of_mem _ hc)
        simp only [Heap.readT, Heap.attr_set_at_find_ne h b k v a hab, hf,
          readChildren_congr_cond (fun c => h.readT fuel c)
            (fun c => (h.attr_set_at b k v).readT fuel c) b
            (fun c n l2 hc hbc => ih c n l2 hbc hc) o.child ns l hl hlb]
        exact hr

/-- The deep-copy child loop, assuming the one-address copy behaves well at
the current fuel (the induction hypothesis of `Heap.deepcopy_reads`):
copying a child list only allocates (the old heap embeds in the new), keeps
the heap well-formed, and the copies read back as the same trees at fresh
addresses. -/
theorem copyChildren_reads (fuel : Nat)
    (IH : ∀ (g : Heap) (c : Nat) (n : Node) (l : List Nat), g.wf →
      g.readT fuel c = some (n, l) →
      ∃ g2 c2 l2, Heap.deepcopy fuel g c = some (g2, c2) ∧ heapLe g g2 ∧
        g2.wf ∧ g.next ≤ g2.next ∧ g2.readT fuel c2 = some (n, l2) ∧
        ∀ x ∈ l2, g.next ≤ x ∧ x < g2.next) :
    ∀ (cs : List Nat) (g : Heap) (ns : NodeList) (L : List Nat), g.wf →
      readChildren (fun c => g.readT fuel c) cs = some (ns, L) →
      ∃ g2 cs2 L2,
        copyChildren (fun h2 c => Heap.deepcopy fuel h2 c) g cs =
          some (g2, cs2) ∧
        heapLe g g2 ∧ g2.wf ∧ g.next ≤ g2.next ∧
        readChildren (fun c => g2.readT fuel c) cs2 = some (ns, L2) ∧
        ∀ x ∈ L2, g.next ≤ x ∧ x < g2.next := by
  intro cs
  induction cs with
  | nil =>
    intro g ns L hwf hr
    simp only [readChildren, Option.some_inj] at hr
    injection hr with hns hL
    subst hns
    refine ⟨g, [], [], rfl, heapLe_refl g, hwf, Nat.le_refl _, rfl, ?_⟩
    intro x hx
    cases hx
  | cons c rest ih =>
    intro g ns L hwf hr
    cases h1 : g.readT fuel c with
    | none => simp [readChildren, h1] at hr
    | some p1 =>
      obtain ⟨n1, l1⟩ := p1
      simp only [readChildren, h1] at hr
      cases h3 : readChildren (fun c => g.readT fuel c) rest with
      | none => simp [h3] at hr
      | some p2 =>
        obtain ⟨ns2, l2⟩ := p2
        simp only [h3] at hr
        have hp := Option.some_injective _ hr
        injection hp with hns hL
        subst hns
        subst hL
        obtain ⟨g1, c2, l1b, hcopy1, hle1, hwf1, hnext1, hread1, hbound1⟩ :=
          IH g c n1 l1 hwf h1
        have h3g1 : readChildren (fun c => g1.readT fuel c) rest =
            some (ns2, l2) :=
          readChildren_congr _ _
            (fun c r hc => Heap.readT_mono g g1 hle1 fuel c r hc) rest
            (ns2, l2) h3
        obtain ⟨g2, rest2, l2b, hcopy2, hle2, hwf2, hnext2, hread2, hbound2⟩ :=
          ih g1 ns2 l2 hwf1 h3g1
        refine ⟨g2, c2 :: rest2, l1b ++ l2b, ?_,
          heapLe_trans g g1 g2 hle1 hle2, hwf2,
          Nat.le_trans hnext1 hnext2, ?_, ?_⟩
        · simp only [copyChildren, hcopy1, hcopy2]
        · simp only [readChildren,
            Heap.readT_mono g1 g2 hle2 fuel c2 (n1, l1b) hread1, hread2]
        · intro x hx
          rcases List.mem_append.mp hx with hx | hx
          · exact ⟨(hbound1 x hx).1,
              Nat.lt_of_lt_of_le (hbound1 x hx).2 hnext2⟩
          · exact ⟨Nat.le_trans hnext1 (hbound2 x hx).1, (hbound2 x hx).2⟩

/-- Deep-copying a readable tree succeeds, only allocates, and the copy
reads back as the very same value tree at entirely fresh addresses. -/
theorem Heap.deepcopy_reads :
    ∀ (fuel : Nat) (h : Heap) (a : Nat) (t : Node) (L : List Nat), h.wf →
      h.readT fuel a = some (t, L) →
      ∃ h2 a2 L2, Heap.deepcopy fuel h a = some (h2, a2) ∧ heapLe h h2 ∧
        h2.wf ∧ h.next ≤ h2.next ∧ h2.readT fuel a2 = some (t, L2) ∧
        ∀ x ∈ L2, h.next ≤ x ∧ x < h2.next := by
  intro fuel
  induction fuel with
  | zero => intro h a t L _ hr; simp [Heap.readT] at hr
  | succ fuel ih =>
    intro h a t L hwf hr
    cases hf : h.find a with
    | none => simp [Heap.readT, hf] at hr
    | some o =>
      simp only [Heap.readT, hf] at hr
      cases hl : readChildren (fun c => h.readT fuel c) o.child with
      | none => simp [hl] at hr
      | some p =>
        obtain ⟨ns, l⟩ := p
        simp only [hl] at hr
        have hp := Option.some_injective _ hr
        injection hp with hnt hL
        obtain ⟨h1, cs2, l2, hcopy, hle1, hwf1, hnext1, hread1, hbound1⟩ :=
          copyChildren_reads fuel
            (fun g c n l3 hg hgr => ih g c n l3 hg hgr) o.child h ns l hwf hl
        refine ⟨(h1.alloc (Obj.mk o.kind o.class_id o.tag_name o.attrs
            o.dirty_mask o.handle cs2)).1, h1.next, h1.next :: l2,
          ?_, ?_, ?_, ?_, ?_, ?_⟩
        · simp only [Heap.deepcopy, hf, hcopy]
          rfl
        · exact heapLe_trans h h1 _ hle1 (h1.alloc_le _)
        · exact h1.alloc_wf _ hwf1
        · exact Nat.le_trans hnext1 (Nat.le_succ _)
        · simp only [Heap.readT, h1.alloc_find_new _ hwf1,
            readChildren_congr _ _
              (fun c r hc => Heap.readT_mono h1 _ (h1.alloc_le _) fuel c r hc)
              cs2 (ns, l2) hread1]
          rw [← hnt]
        · intro x hx
          rcases List.mem_cons.mp hx with hx | hx
          · subst hx
            exact ⟨hnext1, Nat.lt_succ_self _⟩
          · exact ⟨(hbound1 x hx).1, Nat.lt_succ_of_lt (hbound1 x hx).2⟩

/-! Claims C2, C3, C4, C6, C9, C10. -/

/-- Claim C1 (confirmed): for an all-`BaseObject` tree `T` with string
attributes (well-formed Python dictionaries, no private-marker keys),
serializing with `to_xml` and ingesting the element with `from_xml` into a
freshly constructed `BaseObject(class_id, tag_name)` reproduces `T`'s
attribute mapping and the exact tag sequence of its children — under the
contracts of the two external collaborators (naming service the identity on
`T`'s keys; registry resolving every descendant tag to `BaseObject`). -/
theorem c1_roundtrip (conv : String → String) (reg : String → Option Kind)
    (T : Node) (hbase : T.allBase = true) (hok : T.attrsOk = true)
    (hconv : ∀ k ∈ T.allKeys, conv k = k)
    (hreg : ∀ t ∈ T.descTags, reg t = some Kind.baseObject) :
    ∃ e R, T.to_xml none none = some e ∧
      (Node.mk Kind.baseObject T.class_id T.tag_name [] none none
        NodeList.nil).from_xml conv reg e none = some R ∧
      R.attrs = T.attrs ∧ R.child.tags = T.child.tags := by
  obtain ⟨e, hto, hm⟩ := T.to_xml_matches none hbase hok
  obtain ⟨R, hfrom, _, hRa, hRtags⟩ :=
    T.from_xml_reconstruct conv reg e
      (Node.mk Kind.baseObject T.class_id T.tag_name [] none none
        NodeList.nil) none hm hok hconv hreg rfl (Or.inl rfl)
  exact ⟨e, R, hto, hfrom, hRa, hRtags⟩

/-- Claim C1, witness: a two-level tree (a `computeBlade` with one
`lsServer` child) under the identity naming service and an
everything-is-`BaseObject` registry round-trips. -/
theorem c1_witness :
    ∃ e R,
      (Node.mk Kind.baseObject "ComputeBlade" "computeBlade"
        [("dn", "sys/blade-1"), ("serial", "S42")] none none
        (.cons (Node.mk Kind.baseObject "LsServer" "lsServer" [("rn", "x")]
          (some 2) none .nil) .nil)).to_xml none none = some e ∧
      (Node.mk Kind.baseObject "ComputeBlade" "computeBlade" [] none none
        NodeList.nil).from_xml (fun s => s) (fun _ => some Kind.baseObject) e
        none = some R ∧
      R.attrs = [("dn", "sys/blade-1"), ("serial", "S42")] ∧
      R.child.tags = ["lsServer"] :=
  c1_roundtrip (fun s => s) (fun _ => some Kind.baseObject)
    (Node.mk Kind.baseObject "ComputeBlade" "computeBlade"
      [("dn", "sys/blade-1"), ("serial", "S42")] none none
      (.cons (Node.mk Kind.baseObject "LsServer" "lsServer" [("rn", "x")]
        (some 2) none .nil) .nil))
    (by rfl) (by rfl) (fun k _ => rfl) (fun t _ => rfl)

/-- Claim C2 (corrected): `mark_clean()` writes `_dirty_mask = 0` on the
receiver only; it never visits the children (the recursive version,
`child_mark_clean`, exists but is never invoked by `mark_clean`), so the
descendants' dirty flags are left as they were.  Immediately afterwards
`is_dirty()` does return false for the whole subtree — but only because
`is_dirty()` returns false on every tree. -/
theorem c2_mark_clean_root_only (n : Node) :
    n.mark_clean.dirty_mask = some 0 ∧
    n.mark_clean.child = n.child ∧
    n.mark_clean.is_dirty = false := by
  refine ⟨?_, ?_, n.mark_clean.is_dirty_false⟩ <;> cases n <;> rfl

/-- Claim C2, counterexample to the claim as stated: a root with one child
whose `_dirty_mask` is 5 still has a descendant with a set dirty flag after
`mark_clean()` on the root, so `mark_clean` does not clear the flags of all
descendants. -/
theorem c2_counterexample :
    ((Node.mk .baseObject "Root" "root" [] (some 3) none
      (.cons (Node.mk .baseObject "Child" "child" [] (some 5) none .nil)
        .nil)).mark_clean).anyFlagSet = true := by
  rfl

/-- Claim C3 (corrected): `is_dirty()` returns false on every tree.  Each
node's `is_dirty` merely calls `child_is_dirty`, which asks each child's
`is_dirty` in turn: no node's own `_dirty_mask` is ever consulted, and the
recursion bottoms out with false at the leaves. -/
theorem c3_is_dirty_always_false (n : Node) : n.is_dirty = false :=
  n.is_dirty_false

/-- Claim C3, counterexample to the claim as stated: a single node whose
`_dirty_mask` is 1 has a set dirty flag, yet `is_dirty()` returns false,
refuting the claimed equivalence. -/
theorem c3_counterexample :
    (Node.mk .baseObject "A" "a" [] (some 1) none .nil).anyFlagSet = true ∧
    (Node.mk .baseObject "A" "a" [] (some 1) none .nil).is_dirty = false :=
  ⟨rfl, rfl⟩

/-- Claim C4 (corrected): when the argument occurs in `_child`,
`child_remove` removes the first match; when it does not occur, the call
does not fail silently — the underlying `list.remove` raises `ValueError`
("x not in list"). -/
theorem c4_child_remove (n obj : Node) :
    (n.child.memB obj = false →
      n.child_remove obj = .error "list.remove(x): x not in list") ∧
    (∀ (pre : NodeList) (e : Node) (post : NodeList),
      n.child = pre.append (.cons e post) →
      pre.memB obj = false → e.beq obj = true →
      n.child_remove obj = .ok (n.withChild (pre.append post))) := by
  constructor
  · intro h
    simp only [Node.child_remove, NodeList.remove_not_mem n.child obj h]
    rfl
  · intro pre e post hch hpre he
    simp only [Node.child_remove, hch, NodeList.remove_first pre e obj post hpre he]
    rfl

/-- Claim C4, witness for the amended claim: removing a present child
removes it, removing an absent one raises. -/
theorem c4_witness :
    (Node.mk Kind.baseObject "A" "a" [] none none
        NodeList.nil).child_remove (Node.mk Kind.baseObject "B" "b" [] none none .nil) =
      .error "list.remove(x): x not in list" ∧
    (Node.mk Kind.baseObject "A" "a" [] none none
        (.cons (Node.mk Kind.baseObject "B" "b" [] none none .nil) .nil)).child_remove
      (Node.mk Kind.baseObject "B" "b" [] none none .nil) =
      .ok (Node.mk Kind.baseObject "A" "a" [] none none .nil) :=
  ⟨(c4_child_remove _ _).1 (by rfl),
   (c4_child_remove _ _).2 .nil
     (Node.mk Kind.baseObject "B" "b" [] none none .nil) .nil (by rfl) (by rfl)
     (by decide)⟩

/-- Claim C4, counterexample to the claim as stated: `child_remove` on a
node with no children raises (returns an error) instead of completing
silently. -/
theorem c4_counterexample :
    (Node.mk Kind.baseObject "C" "c" [] none none NodeList.nil).child_remove
      (Node.mk Kind.baseObject "D" "d" [] none none .nil) =
    .error "list.remove(x): x not in list" := by
  rfl

/-- Claim C6 (corrected): with a parent element, `elem_create` names the
subelement after the override when one is supplied (and non-empty, Python
truthiness), else after `element_tag`; with no parent element, however, the
override is ignored and the standalone root is always named `element_tag`. -/
theorem c6_elem_create (ct t : String) (p : Xml) :
    (Node.elem_create ct none (some t)).tag = ct ∧
    (Node.elem_create ct none none).tag = ct ∧
    (Node.elem_create ct (some p) none).tag = ct ∧
    (t ≠ "" → (Node.elem_create ct (some p) (some t)).tag = t) ∧
    (Node.elem_create ct (some p) (some "")).tag = ct := by
  refine ⟨rfl, rfl, rfl, ?_, by simp [Node.elem_create, Xml.tag]⟩
  intro ht
  simp [Node.elem_create, ht, Xml.tag]

/-- Claim C6, witness. -/
theorem c6_witness :
    ("foo" ≠ "") ∧
    (Node.elem_create "bar" (some (Xml.mk "p" [] .nil)) (some "foo")).tag = "foo" ∧
    (Node.elem_create "bar" none (some "foo")).tag = "bar" :=
  ⟨by decide,
   (c6_elem_create "bar" "foo" (Xml.mk "p" [] .nil)).2.2.2.1 (by decide),
   (c6_elem_create "bar" "foo" (Xml.mk "p" [] .nil)).1⟩

/-- Claim C6, counterexample to the claim as stated: with no parent element
and an explicit override name "foo", the created root element is named after
`element_tag` ("bar"), not after the override. -/
theorem c6_counterexample :
    (Node.elem_create "bar" none (some "foo")).tag = "bar" ∧
    (Node.elem_create "bar" none (some "foo")).tag ≠ "foo" := by
  exact ⟨rfl, by decide⟩

/-- Claim C8 (confirmed): `clone()` (`copy.deepcopy` through the overridden
`__deepcopy__`) of a tree at address `a` yields a structurally independent
deep copy: it reads back as the very same value tree (same tags, attributes,
dirty masks, and the same `_handle` reference — the session-context address
is copied as a reference, not deep-copied); the source still reads
unchanged; the copy's node addresses are disjoint from the source's at
every depth (children lists are distinct objects); and performing
`attr_set` on any node of the copy leaves the source's whole tree unchanged,
and vice versa.  (`L.Nodup` restricts to genuine trees — one owner per
child — matching the spec's ownership invariant and Python's
`deepcopy`-memo behaviour.) -/
theorem c8_clone_independence (h : Heap) (fuel a : Nat) (t : Node)
    (L : List Nat) (hwf : h.wf) (hr : h.readT fuel a = some (t, L))
    (_hsep : L.Nodup) :
    ∃ h2 a2 L2,
      h.clone fuel a = some (h2, a2) ∧
      h2.readT fuel a2 = some (t, L2) ∧
      h2.readT fuel a = some (t, L) ∧
      (∀ x ∈ L, ∀ y ∈ L2, x ≠ y) ∧
      (∀ b ∈ L2, ∀ k v, (h2.attr_set_at b k v).readT fuel a = some (t, L)) ∧
      (∀ b ∈ L, ∀ k v, (h2.attr_set_at b k v).readT fuel a2 = some (t, L2)) ∧
      (∃ o o2, h.find a = some o ∧ h2.find a2 = some o2 ∧
        o2.handle = o.handle) := by
  obtain ⟨h2, a2, L2, hcopy, hle, hwf2, hnext, hread2, hbound⟩ :=
    Heap.deepcopy_reads fuel h a t L hwf hr
  have hreadold : h2.readT fuel a = some (t, L) :=
    Heap.readT_mono h h2 hle fuel a (t, L) hr
  have hdom : ∀ x ∈ L, x < h.next := Heap.readT_dom h hwf fuel a t L hr
  refine ⟨h2, a2, L2, hcopy, hread2, hreadold, ?_, ?_, ?_, ?_⟩
  · intro x hx y hy
    exact Nat.ne_of_lt (Nat.lt_of_lt_of_le (hdom x hx) (hbound y hy).1)
  · intro b hb k v
    refine Heap.readT_set_other h2 b k v fuel a t L ?_ hreadold
    intro hbL
    exact Nat.ne_of_lt (Nat.lt_of_lt_of_le (hdom b hbL) (hbound b hb).1) rfl
  · intro b hb k v
    refine Heap.readT_set_other h2 b k v fuel a2 t L2 ?_ hread2
    intro hbL2
    exact Nat.ne_of_lt (Nat.lt_of_lt_of_le (hdom b hb) (hbound b hbL2).1) rfl
  · obtain ⟨o, hfo, hoh⟩ := Heap.readT_find h fuel a t L hr
    obtain ⟨o2, hfo2, ho2h⟩ := Heap.readT_find h2 fuel a2 t L2 hread2
    exact ⟨o, o2, hfo, hfo2, by rw [hoh, ho2h]⟩

/-- Claim C8, witness: a two-node tree (root at address 0 with one child at
address 1, both holding the session-context reference 99) is cloned with
fuel 2. -/
theorem c8_witness :
    ∃ h2 a2 L2,
      (Heap.mk [(0, Obj.mk Kind.baseObject "ComputeBlade" "computeBlade"
          [("dn", "sys/blade-1")] none (some 99) [1]),
        (1, Obj.mk Kind.baseObject "LsServer" "lsServer" [("rn", "x")]
          (some 0) (some 99) [])] 2).clone 2 0 = some (h2, a2) ∧
      h2.readT 2 a2 = some (Node.mk Kind.baseObject "ComputeBlade"
        "computeBlade" [("dn", "sys/blade-1")] none (some 99)
        (.cons (Node.mk Kind.baseObject "LsServer" "lsServer" [("rn", "x")]
          (some 0) (some 99) .nil) .nil), L2) ∧
      h2.readT 2 0 = some (Node.mk Kind.baseObject "ComputeBlade"
        "computeBlade" [("dn", "sys/blade-1")] none (some 99)
        (.cons (Node.mk Kind.baseObject "LsServer" "lsServer" [("rn", "x")]
          (some 0) (some 99) .nil) .nil), [0, 1]) ∧
      (∀ x ∈ [0, 1], ∀ y ∈ L2, x ≠ y) ∧
      (∀ b ∈ L2, ∀ k v, (h2.attr_set_at b k v).readT 2 0 =
        some (Node.mk Kind.baseObject "ComputeBlade" "computeBlade"
          [("dn", "sys/blade-1")] none (some 99)
          (.cons (Node.mk Kind.baseObject "LsServer" "lsServer" [("rn", "x")]
            (some 0) (some 99) .nil) .nil), [0, 1])) ∧
      (∀ b ∈ [0, 1], ∀ k v, (h2.attr_set_at b k v).readT 2 a2 =
        some (Node.mk Kind.baseObject "ComputeBlade" "computeBlade"
          [("dn", "sys/blade-1")] none (some 99)
          (.cons (Node.mk Kind.baseObject "LsServer" "lsServer" [("rn", "x")]
            (some 0) (some 99) .nil) .nil), L2)) ∧
      (∃ o o2, (Heap.mk [(0, Obj.mk Kind.baseObject "ComputeBlade"
          "computeBlade" [("dn", "sys/blade-1")] none (some 99) [1]),
        (1, Obj.mk Kind.baseObject "LsServer" "lsServer" [("rn", "x")]
          (some 0) (some 99) [])] 2).find 0 = some o ∧
        h2.find a2 = some o2 ∧ o2.handle = o.handle) :=
  c8_clone_independence
    (Heap.mk [(0, Obj.mk Kind.baseObject "ComputeBlade" "computeBlade"
        [("dn", "sys/blade-1")] none (some 99) [1]),
      (1, Obj.mk Kind.baseObject "LsServer" "lsServer" [("rn", "x")]
        (some 0) (some 99) [])] 2) 2 0
    (Node.mk Kind.baseObject "ComputeBlade" "computeBlade"
      [("dn", "sys/blade-1")] none (some 99)
      (.cons (Node.mk Kind.baseObject "LsServer" "lsServer" [("rn", "x")]
        (some 0) (some 99) .nil) .nil)) [0, 1]
    (by decide) (by rfl) (by decide)

/-- Claim C9 (corrected): `attr_set` performs no validation at all — a
reserved (underscore-prefixed) key is silently written into `__dict__` and
is retrievable afterwards; no `InvalidAttributeNameError` exists anywhere in
the code.  (Serialization still skips such keys, but storage is permitted.) -/
theorem c9_attr_set_unchecked (n : Node) (k v : String)
    (_hk : isPrivateKey k = true) :
    ((n.attr_set k v).attr_get k = some v) ∧
    ((n.attr_set k v).attrs.lookup k = some v) := by
  cases n with
  | mk kd ci tn a d h c =>
    have := dictSet_lookup a k v
    exact ⟨this, this⟩

/-- Claim C9, witness. -/
theorem c9_witness :
    (isPrivateKey "_private" = true) ∧
    (((Node.mk Kind.baseObject "A" "a" [] none none .nil).attr_set "_private"
      "v").attr_get "_private" = some "v") :=
  ⟨by rfl,
   (c9_attr_set_unchecked (Node.mk Kind.baseObject "A" "a" [] none none .nil)
     "_private" "v" (by rfl)).1⟩

/-- Claim C9, counterexample to the claim as stated: setting the reserved
key "_private" through `attr_set` is not rejected; the pair is stored and
the attribute dictionary afterwards has a key beginning with the private
marker. -/
theorem c9_counterexample :
    ((Node.mk Kind.baseObject "A" "a" [] none none .nil).attr_set "_private"
      "v").attr_get "_private" = some "v" := by
  rfl

/-- Claim C10 (confirmed): `to_xml` succeeds exactly on trees whose every
node is a `BaseObject` or an `AbstractFilter`.  `OperationStatus` (via
`ImcCustomMethod`) defines no `to_xml`, so a parent's `child_to_xml` loop
fails on any `OperationStatus` child (an `AttributeError` in Python,
modelled as `none`), and the failure propagates to the root. -/
theorem c10_to_xml_needs_serializable (n : Node) (d : Option Xml)
    (en : Option String) :
    (n.to_xml d en).isSome = n.allSerializable :=
  n.to_xml_isSome d en

/-- Claim C5 (corrected): serializing an `AbstractFilter` whose internal
field `class_` holds `x` emits the XML attribute literally named `class`
with value `x` — provided no other public field is literally named
`"class"` (such a field, iterated after `class_`, would overwrite the
emitted attribute, which refutes the unconditional claim) — and an
attribute named `class_` is never emitted. -/
theorem c5_filter_reserved_class (ci tn x : String)
    (a : List (String × String)) (dm hd2 : Option Nat) (ch : NodeList)
    (d : Option Xml) (en : Option String) (e : Xml)
    (hnodup : keysNodupB (a.map Prod.fst) = true)
    (hx : a.lookup "class_" = some x)
    (hnoc : "class" ∉ a.map Prod.fst)
    (hser : (Node.mk .abstractFilter ci tn a dm hd2 ch).to_xml d en = some e) :
    e.attrib.lookup "class" = some x ∧ "class_" ∉ e.attrib.map Prod.fst := by
  simp only [Node.to_xml] at hser
  have hkeep := NodeList.child_to_xml_keep ch
    (writeAttrsFilter a (Node.elem_create tn d en)) e hser
  rw [hkeep.2]
  constructor
  · rw [writeAttrsFilter_class a x (Node.elem_create tn d en) hx hnodup hnoc]
  · refine writeAttrsFilter_no_raw_class a (Node.elem_create tn d en) ?_
    rw [elem_create_attrib]
    simp

/-- Claim C5, witness: a filter whose only field is `class_ = "X"`
serializes to an element whose `class` attribute is `"X"` and which carries
no `class_` attribute. -/
theorem c5_witness :
    (List.lookup "class"
      (Xml.mk "f" [("class", "X")] XmlList.nil).attrib = some "X") ∧
    ("class_" ∉ (Xml.mk "f" [("class", "X")] XmlList.nil).attrib.map Prod.fst) :=
  c5_filter_reserved_class "F" "f" "X" [("class_", "X")] none none .nil
    none none (Xml.mk "f" [("class", "X")] XmlList.nil)
    (by rfl) (by rfl) (by simp) (by rfl)

/-- Claim C5, counterexample to the claim as stated: a filter whose
`__dict__` holds `class_ = "X"` and, inserted later, a field literally
named `class = "Y"`, serializes with `class="Y"`: the attribute named
`class` does not carry the `class_` value `"X"`. -/
theorem c5_counterexample :
    ((Node.mk Kind.abstractFilter "F" "f" [("class_", "X"), ("class", "Y")]
        none none .nil).to_xml none none) =
      some (Xml.mk "f" [("class", "Y")] XmlList.nil) ∧ ("Y" : String) ≠ "X" :=
  ⟨by rfl, by decide⟩

/-- Claim C7 (confirmed): during `from_xml`, a child element whose tag the
registry resolves to `OperationStatus` is appended as the registry-built
instance itself — its attributes populated from the element's attribute
dictionary, its own `_child` list empty — and the deserializer never
recurses into that element's nested children (the processed result is the
same as if they were absent); a child of any other resolved kind is
ingested recursively by `from_xml` with the same context handle.  The last
conjunct is the loop step showing each processed child is appended to
`_child`. -/
theorem c7_status_terminality (conv : String → String)
    (reg : String → Option Kind) (h : Option Nat) (tag : String)
    (attrib : List (String × String)) (cs : XmlList) :
    (reg tag = some Kind.operationStatus →
      process_child conv reg h (Xml.mk tag attrib cs) =
        some (Node.mk .operationStatus tag tag (pyDict attrib) none none .nil) ∧
      process_child conv reg h (Xml.mk tag attrib cs) =
        process_child conv reg h (Xml.mk tag attrib XmlList.nil)) ∧
    (∀ k, reg tag = some k → k ≠ Kind.operationStatus →
      process_child conv reg h (Xml.mk tag attrib cs) =
        (Node.mk k tag tag (pyDict attrib) none none .nil).from_xml conv reg
          (Xml.mk tag attrib cs) h) ∧
    (∀ (s : Node) (rest : XmlList),
      (XmlList.cons (Xml.mk tag attrib cs) rest).from_xml_children conv reg s h =
        match process_child conv reg h (Xml.mk tag attrib cs) with
        | none => none
        | some c => rest.from_xml_children conv reg (s.child_add c) h) := by
  refine ⟨?_, ?_, ?_⟩
  · intro hs
    have h1 := get_imc_obj_eq reg tag (Xml.mk tag attrib cs)
      Kind.operationStatus hs
    have h2 := get_imc_obj_eq reg tag (Xml.mk tag attrib XmlList.nil)
      Kind.operationStatus hs
    constructor
    · simp only [process_child, Xml.tag, h1, Xml.attrib, Node.kind]
      rfl
    · simp only [process_child, Xml.tag, h1, h2, Xml.attrib, Node.kind]
      simp
  · intro k hk hne
    have h1 := get_imc_obj_eq reg tag (Xml.mk tag attrib cs) k hk
    simp only [process_child, Xml.tag, h1, Xml.attrib, Node.kind]
    rw [if_neg hne]
  · intro s rest
    exact from_xml_children_cons conv reg (Xml.mk tag attrib cs) rest s h

/-- Claim C7, witness: with a registry resolving "operationStatus" to
`OperationStatus` and every other tag to `BaseObject`, a status child
element carrying a nested element is appended populated-but-unexpanded,
while a "computeBlade" child is ingested recursively with the same handle. -/
theorem c7_witness :
    (process_child (fun s => s)
        (fun t => if t = "operationStatus" then some Kind.operationStatus
          else some Kind.baseObject) (some 7)
        (Xml.mk "operationStatus" [("rn", "operation"), ("status", "success")]
          (.cons (Xml.mk "nested" [] .nil) .nil)) =
      some (Node.mk .operationStatus "operationStatus" "operationStatus"
        (pyDict [("rn", "operation"), ("status", "success")]) none none .nil)) ∧
    (process_child (fun s => s)
        (fun t => if t = "operationStatus" then some Kind.operationStatus
          else some Kind.baseObject) (some 7)
        (Xml.mk "computeBlade" [("dn", "sys/blade-1")] .nil) =
      (Node.mk Kind.baseObject "computeBlade" "computeBlade"
        (pyDict [("dn", "sys/blade-1")]) none none .nil).from_xml (fun s => s)
        (fun t => if t = "operationStatus" then some Kind.operationStatus
          else some Kind.baseObject)
        (Xml.mk "computeBlade" [("dn", "sys/blade-1")] .nil) (some 7)) :=
  ⟨((c7_status_terminality (fun s => s)
      (fun t => if t = "operationStatus" then some Kind.operationStatus
        else some Kind.baseObject) (some 7) "operationStatus"
      [("rn", "operation"), ("status", "success")]
      (.cons (Xml.mk "nested" [] .nil) .nil)).1 (by rfl)).1,
   (c7_status_terminality (fun s => s)
      (fun t => if t = "operationStatus" then some Kind.operationStatus
        else some Kind.baseObject) (some 7) "computeBlade"
      [("dn", "sys/blade-1")] .nil).2.1 Kind.baseObject (by rfl)
      (by decide)⟩

/-- Claim C10, witness: a tree with an `OperationStatus` child fails to
serialize; the same tree without it succeeds. -/
theorem c10_witness :
    ((Node.mk Kind.baseObject "A" "a" []
        none none (.cons (Node.mk Kind.operationStatus "OperationStatus"
          "operationStatus" [] none none .nil) .nil)).to_xml none none).isSome =
      false ∧
    ((Node.mk Kind.baseObject "A" "a" [] none none .nil).to_xml none
      none).isSome = true :=
  ⟨c10_to_xml_needs_serializable _ none none,
   c10_to_xml_needs_serializable _ none none⟩

end Imc
